import Mathlib

/-!
Verification of the ChebPE estimator (chebpe.ipynb) and the Brent-method
root finder (brent.wl, reproduced in readme.md) of the oqae repository.

The Python/Mathematica code is embedded shallowly over `ℝ`:

* `cheb n x` is scipy's `eval_chebyt(n, x)`, i.e. the Chebyshev polynomial
  of the first kind, taken from Mathlib.
* `invert_T2rootp`, `find_next_k`, `max_error_cp` and the main loop
  `chebpe` follow the notebook cell by cell; machine floats become exact
  reals, and the oracle's random draws become an explicit Boolean stream
  `coins : ℕ → Bool` indexed by a running toss counter.
* `proportion_confint` models
  `statsmodels.stats.proportion.proportion_confint(count, nobs, method="beta")`:
  the Clopper-Pearson construction via Beta-distribution quantiles, with the
  `count = 0` / `count = nobs` special cases of the library.  For integer
  parameters the Beta cdf is the binomial tail `betaCdf`, and the quantile
  `beta_ppf` is the infimum of the upper level set.
* Fallible operations (Python exceptions, numpy NaN results) are modelled
  with `Option`.
-/

set_option autoImplicit false

namespace Oqae

open Real

/-- scipy.special.eval_chebyt: the Chebyshev polynomial of the first kind. -/
noncomputable def cheb (n : ℕ) (x : ℝ) : ℝ :=
  (Polynomial.Chebyshev.T ℝ (n : ℤ)).eval x

/-- invert_T2rootp from chebpe.ipynb: given T2, find a p with
T2 = T_n(sqrt p)^2, choosing the solution in the lobe of the hint p_int. -/
noncomputable def invert_T2rootp (T2 : ℝ) (n : ℕ) (p_int : ℝ) : ℝ :=
  let theta_int := Real.arccos (Real.sqrt p_int)
  let c := Real.pi / (2 * n)
  let t : ℤ := ⌊theta_int / c⌋
  let theta :=
    if t % 2 = 0 then Real.arccos (2 * T2 - 1) / (2 * n)
    else 2 * c - Real.arccos (2 * T2 - 1) / (2 * n)
  let k : ℤ := t / 2
  Real.cos (theta + Real.pi * k / n) ^ 2

/-- invert_T2rootp with numpy's domain behaviour made explicit: np.sqrt of a
negative number and np.arccos of an argument outside [-1, 1] return NaN, and
NaN propagates to the returned value.  The code contains no clamping of the
statistic, so any T2 outside [0, 1] produces an invalid (NaN) result,
modelled as `none`. -/
noncomputable def invert_T2rootp_checked (T2 : ℝ) (n : ℕ) (p_int : ℝ) : Option ℝ :=
  if p_int < 0 ∨ 1 < p_int then none
  else if 2 * T2 - 1 < -1 ∨ 1 < 2 * T2 - 1 then none
  else some (invert_T2rootp T2 n p_int)

/-- The descending degree search of find_next_k: starting from an odd n,
try n, n-2, n-4, ... while n > 2*min_k+1, returning (n-1)/2 for the first n
whose two interval endpoints lie in the same monotone lobe
(int(2*n*theta_lo/pi) == int(2*n*theta_hi/pi)). -/
noncomputable def findAux (theta_lo theta_hi min_k : ℝ) : ℕ → Option ℕ
  | n =>
    if (n : ℝ) > 2 * min_k + 1 then
      if ⌊2 * (n : ℝ) * theta_lo / Real.pi⌋ = ⌊2 * (n : ℝ) * theta_hi / Real.pi⌋ then
        some ((n - 1) / 2)
      else if h : 2 ≤ n then findAux theta_lo theta_hi min_k (n - 2)
      else none
    else none
  termination_by n => n
  decreasing_by omega

/-- find_next_k from chebpe.ipynb: find a k >= min_k such that for n = 2k+1
the function T_n(sqrt p)^2 has no extrema on [p_min, p_max]. -/
noncomputable def find_next_k (p_min p_max min_k : ℝ) : Option ℕ :=
  let theta_lo := Real.arccos (Real.sqrt p_max)
  let theta_hi := Real.arccos (Real.sqrt p_min)
  let n : ℤ := ⌊(Real.pi / 2) / (theta_hi - theta_lo)⌋
  let n' : ℤ := if n % 2 = 0 then n + 1 else n
  findAux theta_lo theta_hi min_k n'.toNat

/-- The cdf of the Beta(a, b) distribution for positive integer parameters:
the binomial tail P(Bin(a+b-1, x) >= a). -/
noncomputable def betaCdf (a b : ℕ) (x : ℝ) : ℝ :=
  ∑ j ∈ Finset.Icc a (a + b - 1),
    ((a + b - 1).choose j : ℝ) * x ^ j * (1 - x) ^ (a + b - 1 - j)

/-- scipy.stats.beta.ppf for integer shape parameters: the q-quantile of the
Beta(a, b) distribution, as the least point of [0, 1] where the cdf
reaches q. -/
noncomputable def beta_ppf (q : ℝ) (a b : ℕ) : ℝ :=
  sInf {x : ℝ | x ∈ Set.Icc (0 : ℝ) 1 ∧ q ≤ betaCdf a b x}

/-- statsmodels proportion_confint with method="beta" (Clopper-Pearson):
lower = beta.ppf(alpha/2, count, nobs-count+1), upper =
beta.isf(alpha/2, count+1, nobs-count) = beta.ppf(1-alpha/2, ...), with the
library's special cases count = 0 (lower = 0) and count = nobs (upper = 1). -/
noncomputable def proportion_confint (count nobs : ℕ) (alpha : ℝ) : ℝ × ℝ :=
  (if count = 0 then 0 else beta_ppf (alpha / 2) count (nobs - count + 1),
   if count = nobs then 1 else beta_ppf (1 - alpha / 2) (count + 1) (nobs - count))

/-- max_error_cp from chebpe.ipynb: the widest possible Clopper-Pearson
half-width over all head counts 0..Nshots. -/
noncomputable def max_error_cp (delta : ℝ) (Nshots : ℕ) : ℝ :=
  (List.range (Nshots + 1)).foldl
    (fun max_error counts =>
      let lu := proportion_confint counts Nshots delta
      if (lu.2 - lu.1) / 2 > max_error then (lu.2 - lu.1) / 2 else max_error)
    0

/-- Configuration of one chebpe call: the arguments eps, alpha and the
tunables nu, r, Nshots. -/
structure ChebCfg where
  eps : ℝ
  alpha : ℝ
  nu : ℝ
  r : ℝ
  Nshots : ℕ

/-- Step 1 of chebpe: T = int(np.ceil(np.log(1/(2*eps))/np.log(r))),
the total number of confidence intervals. -/
noncomputable def iterBudget (eps r : ℝ) : ℤ :=
  ⌈Real.log (1 / (2 * eps)) / Real.log r⌉

/-- alpha_T = alpha / T, the per-iteration failure budget. -/
noncomputable def alphaT (cfg : ChebCfg) : ℝ :=
  cfg.alpha / ((iterBudget cfg.eps cfg.r : ℤ) : ℝ)

/-- Step 2 of chebpe: err_max = max_error_cp(alpha_T, Nshots). -/
noncomputable def errMax (cfg : ChebCfg) : ℝ :=
  max_error_cp (alphaT cfg) cfg.Nshots

/-- The mutable state of the chebpe loop.  `tosses` counts all coin tosses
ever made and indexes the Boolean stream standing for the oracle's
randomness; it is not visible in the Python code, where the draws come from
the global numpy generator. -/
structure ChebState where
  p_min : ℝ
  p_max : ℝ
  k : ℕ
  num_flips : ℕ
  num_heads : ℕ
  queries : ℕ
  tosses : ℕ

/-- Step 3 of chebpe: p_min, p_max = 0, 1; tallies and counters at 0. -/
def chebInit : ChebState :=
  { p_min := 0, p_max := 1, k := 0, num_flips := 0, num_heads := 0
    queries := 0, tosses := 0 }

/-- Number of heads among the next n tosses of the stream starting at
position start. -/
def countHeads (coins : ℕ → Bool) (start n : ℕ) : ℕ :=
  ((List.range n).filter fun i => coins (start + i)).length

/-- Step 4(b) of chebpe, the early/late decision.
gap = cheb(2k+1, sqrt(p_max))^2 - cheb(2k+1, sqrt(p_min))^2 is the signed
difference; the iteration takes 1 shot when
err_max*(p_max-p_min)/gap < nu*eps and Nshots otherwise.  A zero gap gives
an np.float64 division by zero: the quotient is +inf (nan when the
numerator is 0, -inf when it is negative), and comparisons with nan are
False, so the branch taken is the one recorded here. -/
noncomputable def shotsDecision (em width gap nu_eps : ℝ) (Nshots : ℕ) : ℕ :=
  if gap = 0 then (if em * width < 0 then 1 else Nshots)
  else if em * width / gap < nu_eps then 1 else Nshots

/-- One iteration of the chebpe while-loop (steps 4(a)-4(e) and 5(d)). -/
noncomputable def chebpeStep (cfg : ChebCfg) (coins : ℕ → Bool) (s : ChebState) : ChebState :=
  -- Step 4(a): try to find a better polynomial; on success reset the tally.
  let s1 :=
    match find_next_k s.p_min s.p_max (cfg.r * s.k) with
    | some new_k => { s with k := new_k, num_flips := 0, num_heads := 0 }
    | none => s
  let n := 2 * s1.k + 1
  -- Step 4(b): early or late.
  let gap := cheb n (Real.sqrt s1.p_max) ^ 2 - cheb n (Real.sqrt s1.p_min) ^ 2
  let Nshots_i := shotsDecision (errMax cfg) (s1.p_max - s1.p_min) gap
    (cfg.nu * cfg.eps) cfg.Nshots
  -- Step 4(c): toss the coins; each shot costs 2k+1 oracle queries.
  let h := countHeads coins s1.tosses Nshots_i
  let s2 := { s1 with
    num_heads := s1.num_heads + h
    num_flips := s1.num_flips + Nshots_i
    queries := s1.queries + Nshots_i * n
    tosses := s1.tosses + Nshots_i }
  -- Step 4(d): confidence interval for the statistic.
  let ci := proportion_confint s2.num_heads s2.num_flips (alphaT cfg)
  -- Step 4(e): back-propagate to a confidence interval for p, sort, and
  -- widen by the 1e-15 float-glitch slack.
  let p_int := (s2.p_min + s2.p_max) / 2
  let a := invert_T2rootp ci.1 n p_int
  let b := invert_T2rootp ci.2 n p_int
  let p_min_star := min a b - 1e-15
  let p_max_star := max a b + 1e-15
  -- Step 5(d): intersect with the running interval.
  { s2 with p_min := max s2.p_min p_min_star, p_max := min s2.p_max p_max_star }

/-- The state of the chebpe loop after i iterations: the step applies only
while the loop guard p_max - p_min > eps*2 holds, so the final state is
absorbing. -/
noncomputable def chebpeRun (cfg : ChebCfg) (coins : ℕ → Bool) : ℕ → ChebState
  | 0 => chebInit
  | i + 1 =>
    let s := chebpeRun cfg coins i
    if s.p_max - s.p_min > cfg.eps * 2 then chebpeStep cfg coins s else s

/-- The dictionary returned by chebpe. -/
structure ChebResult where
  p_estimate : ℝ
  exact_error : ℝ
  ci_width : ℝ
  num_oracle_calls : ℕ

/-- chebpe(p_target, eps, alpha, nu, r, Nshots).  `none` models failure:
either the unhandled ZeroDivisionError raised by alpha/T when the iteration
budget T is 0 (before any oracle query), or the loop still running after
`fuel` iterations. -/
noncomputable def chebpe (p_target : ℝ) (cfg : ChebCfg) (coins : ℕ → Bool)
    (fuel : ℕ) : Option ChebResult :=
  if iterBudget cfg.eps cfg.r = 0 then none
  else
    let s := chebpeRun cfg coins fuel
    if s.p_max - s.p_min > cfg.eps * 2 then none
    else some
      { p_estimate := (s.p_min + s.p_max) / 2
        exact_error := |p_target - (s.p_min + s.p_max) / 2|
        ci_width := (s.p_max - s.p_min) / 2
        num_oracle_calls := s.queries }

/-- The Chebyshev polynomial evaluated at cos is cos of the multiplied
angle (scipy's eval_chebyt on [-1,1]). -/
theorem cheb_cos (n : ℕ) (θ : ℝ) : cheb n (Real.cos θ) = Real.cos (n * θ) := by
  unfold cheb
  rw [Polynomial.Chebyshev.T_real_cos]
  push_cast
  ring_nf

section Roundtrip

/-- C2: for n = 2k+1 and p in (0, 1), inverting the statistic
T_n(sqrt p)^2 at hint p recovers p exactly (real arithmetic). -/
theorem invert_roundtrip (k : ℕ) (p : ℝ) (hp0 : 0 < p) (hp1 : p < 1) :
    invert_T2rootp (cheb (2 * k + 1) (Real.sqrt p) ^ 2) (2 * k + 1) p = p := by
  set n : ℕ := 2 * k + 1 with hn
  have hnpos : 0 < (n : ℝ) := by positivity
  have hsp0 : 0 < Real.sqrt p := Real.sqrt_pos.mpr hp0
  have hsp1 : Real.sqrt p < 1 := by
    rw [show (1 : ℝ) = Real.sqrt 1 by simp]
    exact Real.sqrt_lt_sqrt hp0.le hp1
  set θ := Real.arccos (Real.sqrt p) with hθ
  have hθ0 : 0 < θ := Real.arccos_pos.mpr hsp1
  have hθhalf : θ < Real.pi / 2 := Real.arccos_lt_pi_div_two.mpr hsp0
  have hcosθ : Real.cos θ = Real.sqrt p :=
    Real.cos_arccos (by linarith [Real.sqrt_nonneg p]) hsp1.le
  have hT2 : cheb n (Real.sqrt p) ^ 2 = Real.cos ((n : ℝ) * θ) ^ 2 := by
    rw [← hcosθ, cheb_cos]
  set c := Real.pi / (2 * (n : ℝ)) with hcdef
  have hπ := Real.pi_pos
  have hcpos : 0 < c := by positivity
  have h2nc : 2 * (n : ℝ) * c = Real.pi := by
    rw [hcdef]; field_simp
  set t : ℤ := ⌊θ / c⌋ with ht
  have ht0 : 0 ≤ t := Int.floor_nonneg.mpr (by positivity)
  have htle : (t : ℝ) * c ≤ θ := by
    have := Int.floor_le (θ / c)
    calc (t : ℝ) * c ≤ θ / c * c := by
          exact mul_le_mul_of_nonneg_right this hcpos.le
      _ = θ := by field_simp
  have htlt : θ < ((t : ℝ) + 1) * c := by
    have := Int.lt_floor_add_one (θ / c)
    calc θ = θ / c * c := by field_simp
      _ < ((t : ℝ) + 1) * c := by
          exact mul_lt_mul_of_pos_right this hcpos
  set s := θ - (t : ℝ) * c with hs
  have hs0 : 0 ≤ s := by simp only [hs]; linarith
  have hs1 : s < c := by simp only [hs]; nlinarith
  set u := 2 * (n : ℝ) * s with hu
  have hu0 : 0 ≤ u := by positivity
  have huπ : u < Real.pi := by
    calc u < 2 * (n : ℝ) * c := by
          simp only [hu]; nlinarith
      _ = Real.pi := h2nc
  have h2T2 : 2 * (cheb n (Real.sqrt p) ^ 2) - 1 = Real.cos ((t : ℝ) * Real.pi + u) := by
    rw [hT2, ← Real.cos_two_mul]
    congr 1
    have hθeq : θ = (t : ℝ) * c + s := by simp only [hs]; ring
    calc 2 * ((n : ℝ) * θ) = (t : ℝ) * (2 * (n : ℝ) * c) + 2 * (n : ℝ) * s := by
          rw [hθeq]; ring
      _ = (t : ℝ) * Real.pi + u := by rw [h2nc, hu]
  -- unfold the inversion
  simp only [invert_T2rootp]
  rw [← hθ, ← hcdef, ← ht]
  rcases Int.even_or_odd t with ⟨m, hm⟩ | ⟨m, hm⟩
  · -- even lobe index: the statistic is decreasing in theta on the lobe
    have h2m : t = 2 * m := by omega
    have htm : t % 2 = 0 := by omega
    have htdiv : t / 2 = m := by omega
    have htr : (t : ℝ) = 2 * (m : ℝ) := by
      exact_mod_cast h2m
    rw [if_pos htm]
    have harg : (t : ℝ) * Real.pi + u = u + (m : ℝ) * (2 * Real.pi) := by
      rw [htr]; ring
    have harc : Real.arccos (2 * (cheb n (Real.sqrt p) ^ 2) - 1) = u := by
      rw [h2T2, harg, Real.cos_add_int_mul_two_pi]
      exact Real.arccos_cos hu0 huπ.le
    rw [harc, htdiv]
    have hθfinal : u / (2 * (n : ℝ)) + Real.pi * (m : ℝ) / (n : ℝ) = θ := by
      have hueq : u / (2 * (n : ℝ)) = s := by
        rw [hu]; field_simp
      have htc : (t : ℝ) * c = Real.pi * (m : ℝ) / (n : ℝ) := by
        rw [htr, hcdef]; field_simp; ring
      rw [hueq, ← htc]
      simp only [hs]; ring
    rw [hθfinal, hcosθ, Real.sq_sqrt hp0.le]
  · -- odd lobe index: the statistic is increasing in theta on the lobe
    have htm : ¬ t % 2 = 0 := by omega
    have htdiv : t / 2 = m := by omega
    have htr : (t : ℝ) = 2 * (m : ℝ) + 1 := by
      exact_mod_cast hm
    rw [if_neg htm]
    have harg : (t : ℝ) * Real.pi + u = (u + Real.pi) + (m : ℝ) * (2 * Real.pi) := by
      rw [htr]; ring
    have harc : Real.arccos (2 * (cheb n (Real.sqrt p) ^ 2) - 1) = Real.pi - u := by
      rw [h2T2, harg, Real.cos_add_int_mul_two_pi, Real.cos_add_pi, Real.arccos_neg,
        Real.arccos_cos hu0 huπ.le]
    rw [harc, htdiv]
    have hθfinal : 2 * c - (Real.pi - u) / (2 * (n : ℝ)) + Real.pi * (m : ℝ) / (n : ℝ) = θ := by
      have hsub : (Real.pi - u) / (2 * (n : ℝ)) = c - s := by
        rw [hu, hcdef]; field_simp
      have hmc : Real.pi * (m : ℝ) / (n : ℝ) = 2 * (m : ℝ) * c := by
        rw [hcdef]; field_simp; ring
      rw [hsub, hmc]
      have hθeq : θ = (t : ℝ) * c + s := by simp only [hs]; ring
      rw [hθeq, htr]; ring
    rw [hθfinal, hcosθ, Real.sq_sqrt hp0.le]

end Roundtrip

/-- C2 witness: the round-trip at k = 1 (degree n = 3), p = 1/2. -/
theorem invert_roundtrip_witness :
    (0 : ℝ) < 1 / 2 ∧ (1 / 2 : ℝ) < 1 ∧
    invert_T2rootp (cheb (2 * 1 + 1) (Real.sqrt (1 / 2)) ^ 2) (2 * 1 + 1) (1 / 2) = 1 / 2 :=
  ⟨by norm_num, by norm_num, invert_roundtrip 1 (1 / 2) (by norm_num) (by norm_num)⟩

section ShotsRule

theorem sqrt_one_half : Real.sqrt (1 / 2) = Real.sqrt 2 / 2 := by
  rw [show (1 / 2 : ℝ) = (Real.sqrt 2 / 2) ^ 2 by
    rw [div_pow, Real.sq_sqrt (by norm_num : (0:ℝ) ≤ 2)]; norm_num]
  exact Real.sqrt_sq (by positivity)

/-- The degree-3 statistic at p = 1/2. -/
theorem cheb3_at_half : cheb 3 (Real.sqrt (1 / 2)) ^ 2 = 1 / 2 := by
  rw [sqrt_one_half, ← Real.cos_pi_div_four, cheb_cos]
  push_cast
  rw [show (3 : ℝ) * (Real.pi / 4) = Real.pi - Real.pi / 4 by ring, Real.cos_pi_sub,
    Real.cos_pi_div_four, neg_sq, div_pow, Real.sq_sqrt (by norm_num : (0:ℝ) ≤ 2)]
  norm_num

/-- The degree-3 statistic at p = 1/4. -/
theorem cheb3_at_quarter : cheb 3 (Real.sqrt (1 / 4)) ^ 2 = 1 := by
  rw [show (1 / 4 : ℝ) = (1 / 2) ^ 2 by norm_num, Real.sqrt_sq (by norm_num : (0:ℝ) ≤ 1/2),
    ← Real.cos_pi_div_three, cheb_cos]
  push_cast
  rw [show (3 : ℝ) * (Real.pi / 3) = Real.pi by ring, Real.cos_pi]
  norm_num

/-- The statistic at p = 1 is 1 for every degree. -/
theorem cheb_at_one (n : ℕ) : cheb n (Real.sqrt 1) ^ 2 = 1 := by
  rw [Real.sqrt_one, ← Real.cos_zero, cheb_cos, mul_zero, Real.cos_zero]
  norm_num

/-- The shots rule as claim C4 words it: gap taken as an absolute value
|g_n(p_max) - g_n(p_min)|, and a numerically zero gap treated as late. -/
noncomputable def shotsDecisionClaimed (em width gap nu_eps : ℝ) (Nshots : ℕ) : ℕ :=
  if |gap| = 0 then 1
  else if em * width / |gap| < nu_eps then 1 else Nshots

/-- C4 counterexample.  The code's gap is the signed difference, not an
absolute value, and a zero gap is not treated as late.  First instance: at
p_min = 1/4, p_max = 1/2, degree 3, the signed gap is -1/2, so the code
takes 1 shot although errMax*(width)/|gap| = 1/20 is not below nu*eps =
1/100.  Second instance: at p_min = 1/4, p_max = 1, degree 3, the gap is
exactly 0 and the code divides by zero (np.float64 gives +inf) and takes
the full batch of 100 shots, not 1. -/
theorem shots_rule_counterexample :
    cheb 3 (Real.sqrt (1 / 2)) ^ 2 - cheb 3 (Real.sqrt (1 / 4)) ^ 2 = -(1 / 2) ∧
    shotsDecision (1 / 10) (1 / 4) (-(1 / 2)) (1 / 100) 100 = 1 ∧
    shotsDecisionClaimed (1 / 10) (1 / 4) (-(1 / 2)) (1 / 100) 100 = 100 ∧
    cheb 3 (Real.sqrt 1) ^ 2 - cheb 3 (Real.sqrt (1 / 4)) ^ 2 = 0 ∧
    shotsDecision (1 / 10) (3 / 4) 0 (1 / 100) 100 = 100 ∧
    shotsDecisionClaimed (1 / 10) (3 / 4) 0 (1 / 100) 100 = 1 := by
  refine ⟨?_, ?_, ?_, ?_, ?_, ?_⟩
  · rw [cheb3_at_half, cheb3_at_quarter]; norm_num
  · unfold shotsDecision; norm_num
  · unfold shotsDecisionClaimed
    rw [abs_neg, abs_of_pos (by norm_num : (0:ℝ) < 1/2)]
    norm_num
  · rw [cheb_at_one, cheb3_at_quarter]; norm_num
  · unfold shotsDecision; norm_num
  · unfold shotsDecisionClaimed; norm_num

/-- C4 amended: each iteration takes 1 shot exactly when the SIGNED ratio
errMax*(p_max-p_min)/gap is below nu*eps with a nonzero gap (`chebpeStep`
feeds `shotsDecision` exactly these arguments); in particular an interval
on which the statistic decreases (negative gap) is always late, and a zero
gap yields +inf from numpy's float division, hence the full batch --
never 1 shot. -/
theorem shots_rule_amended (em width gap nu_eps : ℝ) (N : ℕ)
    (hem : 0 < em) (hw : 0 < width) (hνε : 0 < nu_eps) (hN : 2 ≤ N) :
    (shotsDecision em width gap nu_eps N = 1 ↔ gap ≠ 0 ∧ em * width / gap < nu_eps) ∧
    (gap < 0 → shotsDecision em width gap nu_eps N = 1) ∧
    (gap = 0 → shotsDecision em width gap nu_eps N = N) := by
  have hnum : 0 < em * width := mul_pos hem hw
  unfold shotsDecision
  refine ⟨?_, ?_, ?_⟩
  · constructor
    · intro h
      by_cases hg : gap = 0
      · rw [if_pos hg, if_neg (by linarith)] at h
        omega
      · rw [if_neg hg] at h
        refine ⟨hg, ?_⟩
        by_contra hlt
        rw [if_neg hlt] at h
        omega
    · rintro ⟨hg, hlt⟩
      rw [if_neg hg, if_pos hlt]
  · intro hneg
    rw [if_neg (by linarith), if_pos ?_]
    have : em * width / gap < 0 := div_neg_of_pos_of_neg hnum hneg
    linarith
  · intro hzero
    rw [if_pos hzero, if_neg (by linarith)]

/-- C4 witness for the amended rule, at the first counterexample state. -/
theorem shots_rule_amended_witness :
    (0 : ℝ) < 1 / 10 ∧ (0 : ℝ) < 1 / 4 ∧ (0 : ℝ) < 1 / 100 ∧ 2 ≤ 100 ∧
    ((shotsDecision (1 / 10) (1 / 4) (-(1 / 2)) (1 / 100) 100 = 1 ↔
        (-(1 / 2) : ℝ) ≠ 0 ∧ (1 / 10 : ℝ) * (1 / 4) / (-(1 / 2)) < 1 / 100) ∧
      ((-(1 / 2) : ℝ) < 0 → shotsDecision (1 / 10) (1 / 4) (-(1 / 2)) (1 / 100) 100 = 1) ∧
      ((-(1 / 2) : ℝ) = 0 → shotsDecision (1 / 10) (1 / 4) (-(1 / 2)) (1 / 100) 100 = 100)) :=
  ⟨by norm_num, by norm_num, by norm_num, by norm_num,
    shots_rule_amended (1 / 10) (1 / 4) (-(1 / 2)) (1 / 100) 100
      (by norm_num) (by norm_num) (by norm_num) (by norm_num)⟩

end ShotsRule

section DomainGuard

/-- C7 counterexample: a statistic marginally above 1 (by 2^-50, pure float
round-off scale) is NOT clamped: the arccos argument 2*T2-1 leaves [-1,1],
np.arccos returns NaN, and the inversion returns an invalid result
(`none`), contradicting the claimed silent clamping. -/
theorem invert_no_clamp_counterexample :
    invert_T2rootp_checked (1 + 1 / 2 ^ 50) 3 (1 / 2) = none := by
  unfold invert_T2rootp_checked
  rw [if_neg (by norm_num), if_pos (by norm_num)]

/-- C7 amended: there is no clamping in invert_T2rootp; the inversion is
only NaN-free on statistic values already inside [0, 1] (which is where the
estimator's Clopper-Pearson bounds in fact live), and any statistic outside
[0, 1] produces an invalid NaN result. -/
theorem invert_checked_amended (T2 : ℝ) (n : ℕ) (p_int : ℝ)
    (h0 : 0 ≤ T2) (h1 : T2 ≤ 1) (hp0 : 0 ≤ p_int) (hp1 : p_int ≤ 1) :
    invert_T2rootp_checked T2 n p_int = some (invert_T2rootp T2 n p_int) ∧
    (∀ T2' : ℝ, T2' < 0 ∨ 1 < T2' → invert_T2rootp_checked T2' n p_int = none) := by
  constructor
  · unfold invert_T2rootp_checked
    rw [if_neg (by push_neg; constructor <;> linarith),
      if_neg (by push_neg; constructor <;> linarith)]
  · intro T2' hT2'
    unfold invert_T2rootp_checked
    rw [if_neg (by push_neg; constructor <;> linarith), if_pos ?_]
    rcases hT2' with h | h
    · left; linarith
    · right; linarith

/-- C7 witness for the amended statement, at T2 = 1/2, n = 3, hint 1/2. -/
theorem invert_checked_amended_witness :
    (0 : ℝ) ≤ 1 / 2 ∧ (1 / 2 : ℝ) ≤ 1 ∧
    (invert_T2rootp_checked (1 / 2) 3 (1 / 2) = some (invert_T2rootp (1 / 2) 3 (1 / 2)) ∧
      (∀ T2' : ℝ, T2' < 0 ∨ 1 < T2' → invert_T2rootp_checked T2' 3 (1 / 2) = none)) :=
  ⟨by norm_num, by norm_num,
    invert_checked_amended (1 / 2) 3 (1 / 2) (by norm_num) (by norm_num)
      (by norm_num) (by norm_num)⟩

end DomainGuard

section Brent

/-- The evolving bracket state of brentmethod (brent.wl, reproduced in
readme.md): the points a, b, c, d, the current trial s, and the bisection
flag. -/
structure BrentState where
  a : ℝ
  b : ℝ
  c : ℝ
  d : ℝ
  s : ℝ
  mflag : Bool

open Classical in
/-- One pass of the While body of brentmethod. -/
noncomputable def brentBody (f : ℝ → ℝ) (tol : ℝ) (st : BrentState) : BrentState :=
  -- inverse quadratic interpolation when the three values differ,
  -- otherwise the secant step
  let s1 :=
    if f st.a ≠ f st.c ∧ f st.b ≠ f st.c then
      st.a * f st.b * f st.c / ((f st.a - f st.b) * (f st.a - f st.c)) +
        st.b * f st.a * f st.c / ((f st.b - f st.a) * (f st.b - f st.c)) +
        st.c * f st.a * f st.b / ((f st.c - f st.a) * (f st.c - f st.b))
    else st.b - f st.b * (st.b - st.a) / (f st.b - f st.a)
  -- fall back to bisection unless s lies strictly inside ((3a+b)/4, b) and
  -- the step-shrinkage conditions hold
  let bad :=
    (¬((3 * st.a + st.b) / 4 < s1 ∧ s1 < st.b)) ∨
      (st.mflag = true ∧ |s1 - st.b| ≥ |st.b - st.c| / 2) ∨
      (st.mflag = false ∧ |s1 - st.b| ≥ |st.c - st.d| / 2) ∨
      (st.mflag = true ∧ |st.b - st.c| < |tol|) ∨
      (st.mflag = false ∧ |st.c - st.d| < |tol|)
  let s2 := if bad then (st.a + st.b) / 2 else s1
  let mflag' : Bool := if bad then true else false
  let d' := st.c
  let c' := st.b
  -- replace whichever of a, b keeps the sign change
  let ab : ℝ × ℝ := if f st.a * f s2 < 0 then (st.a, s2) else (s2, st.b)
  -- re-enforce |f(b)| <= |f(a)|
  if |f ab.1| < |f ab.2| then
    { a := ab.2, b := ab.1, c := c', d := d', s := s2, mflag := mflag' }
  else
    { a := ab.1, b := ab.2, c := c', d := d', s := s2, mflag := mflag' }

open Classical in
/-- The While loop of brentmethod, with explicit fuel: the Mathematica code
enforces no iteration cap, so `none` means the fuel ran out with the loop
still going. -/
noncomputable def brentLoop (f : ℝ → ℝ) (tol : ℝ) : ℕ → BrentState → Option ℝ
  | 0, _ => none
  | fuel + 1, st =>
    if f st.b ≠ 0 ∧ f st.s ≠ 0 ∧ |st.b - st.a| > tol then
      brentLoop f tol fuel (brentBody f tol st)
    else some st.s

open Classical in
/-- brentmethod[func, targ, aa, bb, ttolerance] from brent.wl.  The initial
swap establishes |f(b)| <= |f(a)|; s starts at bb; c = a.  The slot d is
first read only after it has been assigned (mflag starts True), so the
initial value 0 below is never consulted. -/
noncomputable def brentmethod (func : ℝ → ℝ) (targ aa bb tol : ℝ) (fuel : ℕ) : Option ℝ :=
  let f := fun x => func x - targ
  let ab : ℝ × ℝ := if |f aa| < |f bb| then (bb, aa) else (aa, bb)
  brentLoop f tol fuel { a := ab.1, b := ab.2, c := ab.1, d := 0, s := bb, mflag := true }

open Classical in
/-- Modelled from the spec (sections 4.4 and 7), for comparison with the
code: a RootFinder that checks the bracket precondition first and fails
fast with InvalidBracket (the error value) when f(a) and f(b) do not have
opposite signs, instead of running the loop. -/
noncomputable def brentmethodSpecced (func : ℝ → ℝ) (targ aa bb tol : ℝ) (fuel : ℕ) :
    Except Unit (Option ℝ) :=
  if 0 ≤ (func aa - targ) * (func bb - targ) then Except.error ()
  else Except.ok (brentmethod func targ aa bb tol fuel)

theorem brentC8_body1 :
    brentBody (fun x : ℝ => x ^ 2 + 1) (1 / 4)
      { a := 1, b := 0, c := 1, d := 0, s := 1, mflag := true } =
      { a := 1 / 2, b := 0, c := 0, d := 1, s := 1 / 2, mflag := true } := by
  unfold brentBody
  norm_num [abs_of_nonneg]

theorem brentC8_body2 :
    brentBody (fun x : ℝ => x ^ 2 + 1) (1 / 4)
      { a := 1 / 2, b := 0, c := 0, d := 1, s := 1 / 2, mflag := true } =
      { a := 1 / 4, b := 0, c := 0, d := 0, s := 1 / 4, mflag := true } := by
  unfold brentBody
  norm_num [abs_of_nonneg]

theorem brentC8_loop (m : ℕ) :
    brentLoop (fun x : ℝ => x ^ 2 + 1) (1 / 4) (m + 3)
      { a := 1, b := 0, c := 1, d := 0, s := 1, mflag := true } = some (1 / 4) := by
  have h1 := brentC8_body1
  have h2 := brentC8_body2
  simp only [brentLoop, h1, h2]
  norm_num [abs_of_nonneg]

theorem brentC8_method (fuel : ℕ) (h : 3 ≤ fuel) :
    brentmethod (fun x : ℝ => x ^ 2 + 1) 0 0 1 (1 / 4) fuel = some (1 / 4) := by
  obtain ⟨m, rfl⟩ : ∃ m, fuel = m + 3 := ⟨fuel - 3, by omega⟩
  unfold brentmethod
  norm_num [abs_of_nonneg]
  exact brentC8_loop m

/-- C8 counterexample: for f(x) = x^2 + 1 with target 0, the bracket [0, 1]
has f(0) = 1 and f(1) = 2 of the same sign; the spec-side RootFinder fails
fast with InvalidBracket, but the code performs no bracket check: it runs
its loop and returns the purported root 1/4, which is not a root (here f
has no roots at all). -/
theorem brent_same_sign_counterexample :
    (0 : ℝ) ≤ (((0 : ℝ) ^ 2 + 1) - 0) * (((1 : ℝ) ^ 2 + 1) - 0) ∧
    brentmethodSpecced (fun x : ℝ => x ^ 2 + 1) 0 0 1 (1 / 4) 10 = Except.error () ∧
    brentmethod (fun x : ℝ => x ^ 2 + 1) 0 0 1 (1 / 4) 10 = some (1 / 4) ∧
    ((1 / 4 : ℝ) ^ 2 + 1) - 0 ≠ 0 := by
  refine ⟨by norm_num, ?_, brentC8_method 10 (by norm_num), by norm_num⟩
  unfold brentmethodSpecced
  rw [if_pos (by norm_num)]

/-- C8 amended: brentmethod has no InvalidBracket check at all.  On the
same-sign bracket [0, 1] for f(x) = x^2 + 1 (target 0) it runs its loop to
normal termination and returns 1/4, for every sufficient fuel -- although f
has no root anywhere. -/
theorem brent_runs_without_bracket_check (fuel : ℕ) (h : 3 ≤ fuel) :
    brentmethod (fun x : ℝ => x ^ 2 + 1) 0 0 1 (1 / 4) fuel = some (1 / 4) ∧
    ∀ x : ℝ, (x ^ 2 + 1) - 0 ≠ 0 := by
  refine ⟨brentC8_method fuel h, fun x => ?_⟩
  nlinarith [sq_nonneg x]

/-- C8 witness for the amended statement, at fuel 3. -/
theorem brent_runs_without_bracket_check_witness :
    3 ≤ 3 ∧
    (brentmethod (fun x : ℝ => x ^ 2 + 1) 0 0 1 (1 / 4) 3 = some (1 / 4) ∧
      ∀ x : ℝ, (x ^ 2 + 1) - 0 ≠ 0) :=
  ⟨by norm_num, brent_runs_without_bracket_check 3 (by norm_num)⟩

end Brent

/-- C10 concrete configuration: eps = 0.5 with the notebook defaults
nu = 8, r = 2, Nshots = 100 and alpha = 0.05. -/
noncomputable def cfgC10 : ChebCfg :=
  { eps := 1 / 2, alpha := 1 / 20, nu := 8, r := 2, Nshots := 100 }

section LoopInvariants

/-- A successful degree search returns (m-1)/2 for some candidate m with
m > 2*min_k + 1 (the while-loop guard of find_next_k). -/
theorem findAux_gt (theta_lo theta_hi min_k : ℝ) (n k' : ℕ)
    (h : findAux theta_lo theta_hi min_k n = some k') :
    ∃ m : ℕ, (m : ℝ) > 2 * min_k + 1 ∧ k' = (m - 1) / 2 := by
  induction n using Nat.strong_induction_on with
  | _ n ih =>
    rw [findAux] at h
    split_ifs at h with h1 h2 h3
    · obtain rfl : (n - 1) / 2 = k' := Option.some.inj h
      exact ⟨n, h1, rfl⟩
    · exact ih (n - 2) (by omega) h

/-- The same guard propagated through find_next_k. -/
theorem find_next_k_gt (p_min p_max min_k : ℝ) (k' : ℕ)
    (h : find_next_k p_min p_max min_k = some k') :
    ∃ m : ℕ, (m : ℝ) > 2 * min_k + 1 ∧ k' = (m - 1) / 2 := by
  unfold find_next_k at h
  exact findAux_gt _ _ _ _ _ h

/-- One chebpe step only narrows the interval: p_min never decreases and
p_max never increases. -/
theorem chebpeStep_interval (cfg : ChebCfg) (coins : ℕ → Bool) (s : ChebState) :
    s.p_min ≤ (chebpeStep cfg coins s).p_min ∧ (chebpeStep cfg coins s).p_max ≤ s.p_max := by
  rcases h : find_next_k s.p_min s.p_max (cfg.r * s.k) with _ | nk <;>
    simp only [chebpeStep, h] <;>
    exact ⟨le_max_left _ _, min_le_left _ _⟩

/-- One chebpe step never decreases the degree, provided r >= 1. -/
theorem chebpeStep_k (cfg : ChebCfg) (coins : ℕ → Bool) (s : ChebState)
    (hr : 1 ≤ cfg.r) : s.k ≤ (chebpeStep cfg coins s).k := by
  rcases h : find_next_k s.p_min s.p_max (cfg.r * s.k) with _ | nk
  · simp [chebpeStep, h]
  · simp only [chebpeStep, h]
    obtain ⟨m, hm, hk⟩ := find_next_k_gt _ _ _ _ h
    have hrk : (s.k : ℝ) ≤ cfg.r * s.k := le_mul_of_one_le_left (by positivity) hr
    have hm' : (m : ℝ) > 2 * (s.k : ℝ) + 1 := by linarith
    have : m > 2 * s.k + 1 := by exact_mod_cast hm'
    omega

/-- The loop recursion, stated as an equation usable in rewriting. -/
theorem chebpeRun_succ (cfg : ChebCfg) (coins : ℕ → Bool) (i : ℕ) :
    chebpeRun cfg coins (i + 1) =
      if (chebpeRun cfg coins i).p_max - (chebpeRun cfg coins i).p_min > cfg.eps * 2
      then chebpeStep cfg coins (chebpeRun cfg coins i)
      else chebpeRun cfg coins i := by
  rw [chebpeRun]

/-- C5: within every run, for every possible oracle outcome stream, the
interval width p_max - p_min is non-increasing and the degree k is
non-decreasing across iterations (r >= 1 as documented). -/
theorem run_monotone (cfg : ChebCfg) (coins : ℕ → Bool) (hr : 1 ≤ cfg.r) (i : ℕ) :
    (chebpeRun cfg coins (i + 1)).p_max - (chebpeRun cfg coins (i + 1)).p_min ≤
      (chebpeRun cfg coins i).p_max - (chebpeRun cfg coins i).p_min ∧
    (chebpeRun cfg coins i).k ≤ (chebpeRun cfg coins (i + 1)).k := by
  rw [chebpeRun_succ]
  split_ifs with hgo
  · obtain ⟨h1, h2⟩ := chebpeStep_interval cfg coins (chebpeRun cfg coins i)
    exact ⟨by linarith, chebpeStep_k cfg coins _ hr⟩
  · exact ⟨le_refl _, le_refl _⟩

/-- C5 witness: the concrete C10 configuration (r = 2), an all-tails
stream, first iteration. -/
theorem run_monotone_witness :
    1 ≤ cfgC10.r ∧
    ((chebpeRun cfgC10 (fun _ => false) 1).p_max -
        (chebpeRun cfgC10 (fun _ => false) 1).p_min ≤
      (chebpeRun cfgC10 (fun _ => false) 0).p_max -
        (chebpeRun cfgC10 (fun _ => false) 0).p_min ∧
     (chebpeRun cfgC10 (fun _ => false) 0).k ≤ (chebpeRun cfgC10 (fun _ => false) 1).k) :=
  ⟨by norm_num [cfgC10], run_monotone cfgC10 (fun _ => false) (by norm_num [cfgC10]) 0⟩

/-- The degree in force during the iteration leaving state s (after the
step 4(a) update). -/
noncomputable def stepK (cfg : ChebCfg) (s : ChebState) : ℕ :=
  match find_next_k s.p_min s.p_max (cfg.r * s.k) with
  | some new_k => new_k
  | none => s.k

/-- The number of shots taken in the iteration leaving state s. -/
noncomputable def stepShots (cfg : ChebCfg) (s : ChebState) : ℕ :=
  shotsDecision (errMax cfg) (s.p_max - s.p_min)
    (cheb (2 * stepK cfg s + 1) (Real.sqrt s.p_max) ^ 2 -
      cheb (2 * stepK cfg s + 1) (Real.sqrt s.p_min) ^ 2)
    (cfg.nu * cfg.eps) cfg.Nshots

/-- Each step pays shots * (2k+1) queries: one oracle call costs n = 2k+1
at the degree in force. -/
theorem chebpeStep_queries (cfg : ChebCfg) (coins : ℕ → Bool) (s : ChebState) :
    (chebpeStep cfg coins s).queries =
      s.queries + stepShots cfg s * (2 * stepK cfg s + 1) := by
  rcases h : find_next_k s.p_min s.p_max (cfg.r * s.k) with _ | nk <;>
    simp only [chebpeStep, stepShots, stepK, h]

/-- C6: the query counter of every run state equals the sum over the
iterations performed so far of (shots taken in that iteration) * n_i with
n_i = 2*k_i + 1 the degree in force during that iteration; iterations after
termination contribute nothing.  The reported num_oracle_calls of a
returned result is exactly this counter. -/
theorem queries_accounting (p_target : ℝ) (cfg : ChebCfg) (coins : ℕ → Bool) (i : ℕ) :
    (chebpeRun cfg coins i).queries =
      (∑ j ∈ Finset.range i,
        if (chebpeRun cfg coins j).p_max - (chebpeRun cfg coins j).p_min > cfg.eps * 2
        then stepShots cfg (chebpeRun cfg coins j) * (2 * stepK cfg (chebpeRun cfg coins j) + 1)
        else 0) ∧
    (chebpe p_target cfg coins i).elim True
      (fun res => res.num_oracle_calls = (chebpeRun cfg coins i).queries) := by
  constructor
  · induction i with
    | zero => simp [chebpeRun, chebInit]
    | succ j ihj =>
      rw [Finset.sum_range_succ, ← ihj, chebpeRun_succ]
      split_ifs with hgo
      · rw [chebpeStep_queries]
      · omega
  · simp only [chebpe]
    split_ifs <;> simp

end LoopInvariants

section ClopperPearson

/-- Beta(m, 1) has cdf x^m. -/
theorem betaCdf_right (m : ℕ) (x : ℝ) : betaCdf m 1 x = x ^ m := by
  unfold betaCdf
  rw [Nat.add_sub_cancel, Finset.Icc_self, Finset.sum_singleton]
  simp

/-- Beta(1, m) has cdf 1 - (1-x)^m. -/
theorem betaCdf_left (m : ℕ) (x : ℝ) : betaCdf 1 m x = 1 - (1 - x) ^ m := by
  unfold betaCdf
  have hmm : 1 + m - 1 = m := by omega
  rw [hmm]
  have htot : ∑ j ∈ Finset.range (m + 1), (m.choose j : ℝ) * x ^ j * (1 - x) ^ (m - j) = 1 := by
    have h := add_pow x (1 - x) m
    rw [show x + (1 - x) = (1 : ℝ) by ring, one_pow] at h
    rw [show (∑ j ∈ Finset.range (m + 1), (m.choose j : ℝ) * x ^ j * (1 - x) ^ (m - j)) =
        ∑ j ∈ Finset.range (m + 1), x ^ j * (1 - x) ^ (m - j) * (m.choose j : ℝ) from
      Finset.sum_congr rfl fun j _ => by ring]
    exact h.symm
  have hrange : Finset.range (m + 1) = insert 0 (Finset.Icc 1 m) := by
    ext j
    simp only [Finset.mem_range, Finset.mem_insert, Finset.mem_Icc]
    omega
  rw [hrange, Finset.sum_insert (by simp)] at htot
  have h0 : (m.choose 0 : ℝ) * x ^ 0 * (1 - x) ^ (m - 0) = (1 - x) ^ m := by simp
  rw [h0] at htot
  linarith

/-- The Beta(m, 1) quantile: q^(1/m). -/
theorem beta_ppf_right (q : ℝ) (m : ℕ) (hm : m ≠ 0) (hq0 : 0 < q) (hq1 : q ≤ 1) :
    beta_ppf q m 1 = q ^ ((m : ℝ))⁻¹ := by
  set L := q ^ ((m : ℝ))⁻¹ with hL
  have hL0 : 0 < L := Real.rpow_pos_of_pos hq0 _
  have hL1 : L ≤ 1 := Real.rpow_le_one hq0.le hq1 (by positivity)
  have hLm : L ^ m = q := Real.rpow_inv_natCast_pow hq0.le hm
  unfold beta_ppf
  have hset : {x : ℝ | x ∈ Set.Icc (0 : ℝ) 1 ∧ q ≤ betaCdf m 1 x} = Set.Icc L 1 := by
    ext x
    simp only [Set.mem_setOf_eq, betaCdf_right, Set.mem_Icc]
    constructor
    · rintro ⟨⟨hx0, hx1⟩, hq⟩
      refine ⟨?_, hx1⟩
      by_contra hlt
      push_neg at hlt
      have hpow : x ^ m < L ^ m := pow_lt_pow_left₀ hlt hx0 hm
      rw [hLm] at hpow
      linarith
    · rintro ⟨hxL, hx1⟩
      have hx0 : 0 ≤ x := le_trans hL0.le hxL
      refine ⟨⟨hx0, hx1⟩, ?_⟩
      have hpow : L ^ m ≤ x ^ m := pow_le_pow_left₀ hL0.le hxL m
      rw [hLm] at hpow
      linarith
  rw [hset]
  exact csInf_Icc hL1

/-- The Beta(1, m) quantile: 1 - (1-q)^(1/m). -/
theorem beta_ppf_left (q : ℝ) (m : ℕ) (hm : m ≠ 0) (hq0 : 0 ≤ q) (hq1 : q ≤ 1) :
    beta_ppf q 1 m = 1 - (1 - q) ^ ((m : ℝ))⁻¹ := by
  have h1q : 0 ≤ 1 - q := by linarith
  set R := (1 - q) ^ ((m : ℝ))⁻¹ with hR
  have hR0 : 0 ≤ R := Real.rpow_nonneg h1q _
  have hR1 : R ≤ 1 := Real.rpow_le_one h1q (by linarith) (by positivity)
  have hRm : R ^ m = 1 - q := Real.rpow_inv_natCast_pow h1q hm
  unfold beta_ppf
  have hset : {x : ℝ | x ∈ Set.Icc (0 : ℝ) 1 ∧ q ≤ betaCdf 1 m x} = Set.Icc (1 - R) 1 := by
    ext x
    simp only [Set.mem_setOf_eq, betaCdf_left m, Set.mem_Icc]
    constructor
    · rintro ⟨⟨hx0, hx1⟩, hq'⟩
      refine ⟨?_, hx1⟩
      by_contra hlt
      push_neg at hlt
      have hxR : R < 1 - x := by linarith
      have hpow : R ^ m < (1 - x) ^ m := pow_lt_pow_left₀ hxR hR0 hm
      rw [hRm] at hpow
      linarith
    · rintro ⟨hxL, hx1⟩
      have hx0 : 0 ≤ x := by linarith
      refine ⟨⟨hx0, hx1⟩, ?_⟩
      have hxR : 1 - x ≤ R := by linarith
      have hpow : (1 - x) ^ m ≤ R ^ m := pow_le_pow_left₀ (by linarith) hxR m
      rw [hRm] at hpow
      linarith
  rw [hset]
  exact csInf_Icc (by linarith)

/-- Every Beta quantile of the model lies in [0, 1]. -/
theorem beta_ppf_mem (q : ℝ) (a b : ℕ) : 0 ≤ beta_ppf q a b ∧ beta_ppf q a b ≤ 1 := by
  unfold beta_ppf
  set S := {x : ℝ | x ∈ Set.Icc (0 : ℝ) 1 ∧ q ≤ betaCdf a b x} with hS
  rcases Set.eq_empty_or_nonempty S with he | hne
  · rw [he, Real.sInf_empty]
    norm_num
  · have hbdd : BddBelow S := ⟨0, fun x hx => hx.1.1⟩
    obtain ⟨y, hy⟩ := hne
    exact ⟨le_csInf ⟨y, hy⟩ fun x hx => hx.1.1, le_trans (csInf_le hbdd hy) hy.1.2⟩

/-- Clopper-Pearson when every toss was heads: ((alpha/2)^(1/m), 1). -/
theorem confint_all_heads (m : ℕ) (hm : m ≠ 0) (alpha : ℝ)
    (h0 : 0 < alpha) (h2 : alpha ≤ 2) :
    proportion_confint m m alpha = ((alpha / 2) ^ ((m : ℝ))⁻¹, 1) := by
  unfold proportion_confint
  rw [if_neg hm, if_pos rfl, Nat.sub_self, beta_ppf_right (alpha / 2) m hm
    (by linarith) (by linarith)]

/-- Clopper-Pearson when every toss was tails: (0, 1 - (alpha/2)^(1/m)). -/
theorem confint_all_tails (m : ℕ) (hm : m ≠ 0) (alpha : ℝ)
    (h0 : 0 ≤ alpha) (h2 : alpha ≤ 2) :
    proportion_confint 0 m alpha = (0, 1 - (alpha / 2) ^ ((m : ℝ))⁻¹) := by
  unfold proportion_confint
  rw [if_pos rfl, if_neg (by omega), Nat.sub_zero, beta_ppf_left (1 - alpha / 2) m hm
    (by linarith) (by linarith), show 1 - (1 - alpha / 2) = alpha / 2 by ring]

theorem le_foldl_max_init (g : ℕ → ℝ) (l : List ℕ) (acc : ℝ) :
    acc ≤ l.foldl (fun m c => max m (g c)) acc := by
  induction l generalizing acc with
  | nil => simp
  | cons c l ih => exact le_trans (le_max_left _ _) (ih _)

theorem le_foldl_max_mem (g : ℕ → ℝ) (l : List ℕ) (acc : ℝ) (c : ℕ) (hc : c ∈ l) :
    g c ≤ l.foldl (fun m c => max m (g c)) acc := by
  induction l generalizing acc with
  | nil => simp at hc
  | cons a l ih =>
    rcases List.mem_cons.mp hc with rfl | hc'
    · exact le_trans (le_max_right _ _) (le_foldl_max_init g l _)
    · exact ih _ hc'

theorem foldl_max_le (g : ℕ → ℝ) (l : List ℕ) (acc B : ℝ) (hacc : acc ≤ B)
    (h : ∀ c ∈ l, g c ≤ B) : l.foldl (fun m c => max m (g c)) acc ≤ B := by
  induction l generalizing acc with
  | nil => exact hacc
  | cons a l ih =>
    exact ih _ (max_le hacc (h a (List.mem_cons_self a l))) fun c hc =>
      h c (List.mem_cons_of_mem a hc)

/-- max_error_cp is a running maximum. -/
theorem max_error_cp_eq (delta : ℝ) (Nshots : ℕ) :
    max_error_cp delta Nshots =
      (List.range (Nshots + 1)).foldl
        (fun m c => max m (((proportion_confint c Nshots delta).2 -
          (proportion_confint c Nshots delta).1) / 2)) 0 := by
  unfold max_error_cp
  apply List.foldl_ext
  intro m c _
  rcases le_or_lt (((proportion_confint c Nshots delta).2 -
      (proportion_confint c Nshots delta).1) / 2) m with h | h
  · rw [if_neg (by linarith), max_eq_left h]
  · rw [if_pos h, max_eq_right h.le]

/-- err_max always lies in [0, 1/2]: every Clopper-Pearson interval of the
model is inside [0, 1]. -/
theorem err_max_bounds (delta : ℝ) (Nshots : ℕ) :
    0 ≤ max_error_cp delta Nshots ∧ max_error_cp delta Nshots ≤ 1 / 2 := by
  rw [max_error_cp_eq]
  constructor
  · exact le_foldl_max_init _ _ _
  · apply foldl_max_le _ _ _ _ (by norm_num)
    intro c _
    have hu : (proportion_confint c Nshots delta).2 ≤ 1 := by
      unfold proportion_confint
      dsimp only
      split_ifs
      · norm_num
      · exact (beta_ppf_mem _ _ _).2
    have hl : 0 ≤ (proportion_confint c Nshots delta).1 := by
      unfold proportion_confint
      dsimp only
      split_ifs
      · norm_num
      · exact (beta_ppf_mem _ _ _).1
    linarith

/-- err_max dominates the all-tails interval half-width. -/
theorem err_max_ge_tails (delta : ℝ) (Nshots : ℕ) :
    ((proportion_confint 0 Nshots delta).2 - (proportion_confint 0 Nshots delta).1) / 2 ≤
      max_error_cp delta Nshots := by
  rw [max_error_cp_eq]
  exact le_foldl_max_mem
    (fun c => ((proportion_confint c Nshots delta).2 - (proportion_confint c Nshots delta).1) / 2)
    (List.range (Nshots + 1)) 0 0 (List.mem_range.mpr (Nat.succ_pos Nshots))

end ClopperPearson

section BudgetC1

/-- eval_chebyt at degree 1 is the identity. -/
theorem cheb_one_eval (x : ℝ) : cheb 1 x = x := by
  unfold cheb
  rw [show ((1 : ℕ) : ℤ) = 1 from rfl, Polynomial.Chebyshev.T_one]
  simp

/-- On the full interval [0, 1] the degree search always fails: the top
candidate is n = 1, which does not exceed 2*min_k+1. -/
theorem find_next_k_01 (mk : ℝ) (hmk : 0 ≤ mk) : find_next_k 0 1 mk = none := by
  have hπ := Real.pi_pos
  simp only [find_next_k, Real.sqrt_one, Real.sqrt_zero, Real.arccos_one, Real.arccos_zero,
    sub_zero]
  rw [div_self (ne_of_gt (by positivity : (0:ℝ) < Real.pi / 2)), Int.floor_one]
  norm_num
  rw [findAux]
  rw [if_neg (by push_neg; norm_num; linarith)]

theorem countHeads_false (start n : ℕ) : countHeads (fun _ => false) start n = 0 := by
  unfold countHeads
  simp

theorem countHeads_true (start n : ℕ) : countHeads (fun _ => true) start n = n := by
  unfold countHeads
  simp

/-- The shots decision always returns 1 or the full batch. -/
theorem shotsDecision_mem (em w g nu_eps : ℝ) (N : ℕ) :
    shotsDecision em w g nu_eps N = 1 ∨ shotsDecision em w g nu_eps N = N := by
  unfold shotsDecision
  split_ifs <;> simp

/-- Degree-1 inversion is the identity on statistic values in [0, 1]. -/
theorem invert_T2rootp_n1 (T2 p_int : ℝ) (h0 : 0 ≤ T2) (h1 : T2 ≤ 1)
    (hp0 : 0 < p_int) : invert_T2rootp T2 1 p_int = T2 := by
  simp only [invert_T2rootp]
  have hsp : 0 < Real.sqrt p_int := Real.sqrt_pos.mpr hp0
  have hθhalf : Real.arccos (Real.sqrt p_int) < Real.pi / 2 :=
    Real.arccos_lt_pi_div_two.mpr hsp
  have hθ0 : 0 ≤ Real.arccos (Real.sqrt p_int) := Real.arccos_nonneg _
  have hπ := Real.pi_pos
  have ht : ⌊Real.arccos (Real.sqrt p_int) / (Real.pi / (2 * ((1 : ℕ) : ℝ)))⌋ = 0 := by
    rw [Int.floor_eq_zero_iff]
    constructor
    · positivity
    · rw [div_lt_one (by positivity)]
      push_cast
      linarith
  rw [ht]
  norm_num
  rw [Real.cos_sq]
  rw [show 2 * (Real.arccos (2 * T2 - 1) / 2) = Real.arccos (2 * T2 - 1) by ring]
  rw [Real.cos_arccos (by linarith) (by linarith)]
  ring

/-- An upper bound on x^(1/m) from an upper bound on x by a power. -/
theorem rpow_inv_le_of_le_pow {x b : ℝ} {m : ℕ} (hx : 0 ≤ x) (hb : 0 ≤ b) (hm : m ≠ 0)
    (h : x ≤ b ^ m) : x ^ ((m : ℝ))⁻¹ ≤ b := by
  have h1 : (x ^ ((m : ℝ))⁻¹) ^ m = x := Real.rpow_inv_natCast_pow hx hm
  by_contra hlt
  push_neg at hlt
  have h2 : b ^ m < (x ^ ((m : ℝ))⁻¹) ^ m := pow_lt_pow_left₀ hlt hb hm
  rw [h1] at h2
  linarith

/-- A lower bound on x^(1/m) from a lower bound on x by a power. -/
theorem le_rpow_inv_of_pow_le {x a : ℝ} {m : ℕ} (hx : 0 ≤ x) (ha : 0 ≤ a) (hm : m ≠ 0)
    (h : a ^ m ≤ x) : a ≤ x ^ ((m : ℝ))⁻¹ := by
  have h1 : (x ^ ((m : ℝ))⁻¹) ^ m = x := Real.rpow_inv_natCast_pow hx hm
  by_contra hlt
  push_neg at hlt
  have h2 : (x ^ ((m : ℝ))⁻¹) ^ m < a ^ m :=
    pow_lt_pow_left₀ hlt (Real.rpow_nonneg hx _) hm
  rw [h1] at h2
  linarith

/-- After the first iteration on an all-tails stream the state is
[0, 1 - (alpha_T/2)^(1/m) + 1e-15] with m shots taken at degree 1, where
m is 1 or the full batch. -/
theorem chebpeStep_init_tails (cfg : ChebCfg) (hα : alphaT cfg = 1 / 20)
    (hN : cfg.Nshots ≠ 0) :
    ∃ m : ℕ, (m = 1 ∨ m = cfg.Nshots) ∧
      chebpeStep cfg (fun _ => false) chebInit =
        { p_min := 0, p_max := 1 - (1 / 40 : ℝ) ^ ((m : ℝ))⁻¹ + 1e-15,
          k := 0, num_flips := m, num_heads := 0, queries := m, tosses := m } := by
  have hfind : find_next_k (0:ℝ) 1 0 = none := find_next_k_01 0 le_rfl
  simp only [chebpeStep, chebInit, Nat.cast_zero, mul_zero, hfind]
  set m := shotsDecision (errMax cfg) (1 - 0)
    (cheb (0 + 1) (Real.sqrt 1) ^ 2 - cheb (0 + 1) (Real.sqrt 0) ^ 2)
    (cfg.nu * cfg.eps) cfg.Nshots with hm
  have hmem : m = 1 ∨ m = cfg.Nshots := shotsDecision_mem _ _ _ _ _
  have hm0 : m ≠ 0 := by
    rcases hmem with h | h <;> omega
  refine ⟨m, hmem, ?_⟩
  rw [countHeads_false]
  simp only [Nat.zero_add, Nat.add_zero, Nat.mul_one, zero_add, add_zero, mul_one]
  rw [hα, confint_all_tails m hm0 (1 / 20) (by norm_num) (by norm_num)]
  have hq : ((1 : ℝ) / 20) / 2 = 1 / 40 := by norm_num
  rw [hq]
  set U := 1 - (1 / 40 : ℝ) ^ ((m : ℝ))⁻¹ with hU
  have hrle1 : (1 / 40 : ℝ) ^ ((m : ℝ))⁻¹ ≤ 1 :=
    Real.rpow_le_one (by norm_num) (by norm_num) (by positivity)
  have hrge : (1 / 40 : ℝ) ≤ (1 / 40 : ℝ) ^ ((m : ℝ))⁻¹ := by
    apply le_rpow_inv_of_pow_le (by norm_num) (by norm_num) hm0
    calc ((1 : ℝ) / 40) ^ m ≤ (1 / 40) ^ 1 := by
          apply pow_le_pow_of_le_one (by norm_num) (by norm_num)
          omega
      _ = 1 / 40 := by norm_num
  have hU0 : 0 ≤ U := by rw [hU]; linarith
  have hU1 : U ≤ 39 / 40 := by rw [hU]; linarith
  have hle1 : U ≤ 1 := le_trans hU1 (by norm_num)
  dsimp only
  have hinv0 : invert_T2rootp 0 1 (1 / 2) = 0 :=
    invert_T2rootp_n1 0 (1 / 2) le_rfl (by norm_num) (by norm_num)
  have hinvU : invert_T2rootp U 1 (1 / 2) = U :=
    invert_T2rootp_n1 U (1 / 2) hU0 hle1 (by norm_num)
  rw [hinv0, hinvU, min_eq_left hU0, max_eq_right hU0,
    max_eq_left (by norm_num : (0 : ℝ) - 1e-15 ≤ 0),
    min_eq_right (by linarith : U + 1e-15 ≤ 1)]

/-- C1 concrete configuration: eps = 1/2000, alpha = 0.05, nu = 8 (default),
r = 1000, Nshots = 100 (default), giving an iteration budget of exactly
T = 1. -/
noncomputable def cfgC1 : ChebCfg :=
  { eps := 1 / 2000, alpha := 1 / 20, nu := 8, r := 1000, Nshots := 100 }

theorem iterBudget_C1 : iterBudget cfgC1.eps cfgC1.r = 1 := by
  show iterBudget (1 / 2000 : ℝ) 1000 = 1
  unfold iterBudget
  rw [show (1 : ℝ) / (2 * (1 / 2000)) = 1000 by norm_num,
    div_self (ne_of_gt (Real.log_pos (by norm_num)))]
  exact Int.ceil_one

theorem alphaT_C1 : alphaT cfgC1 = 1 / 20 := by
  unfold alphaT
  rw [iterBudget_C1]
  show (1 / 20 : ℝ) / ((1 : ℤ) : ℝ) = 1 / 20
  norm_num

/-- C1 counterexample: with eps = 1/2000, alpha = 0.05, r = 1000 the
iteration budget is T = 1, but on the all-tails outcome stream the
interval after 1 iteration is [0, 1 - (1/40)^(1/m) + 1e-15] (m <= 100
shots), whose width exceeds 0.036 > 2*eps: the loop is still running after
T iterations, so the budget does not bound the iteration count. -/
theorem budget_bound_counterexample :
    iterBudget cfgC1.eps cfgC1.r = 1 ∧
    (chebpeRun cfgC1 (fun _ => false) 1).p_max -
        (chebpeRun cfgC1 (fun _ => false) 1).p_min > cfgC1.eps * 2 := by
  obtain ⟨m, hmem, hstep⟩ := chebpeStep_init_tails cfgC1 alphaT_C1 (by norm_num [cfgC1])
  refine ⟨iterBudget_C1, ?_⟩
  rw [chebpeRun_succ, if_pos (by norm_num [chebpeRun, chebInit, cfgC1]),
    show chebpeRun cfgC1 (fun _ => false) 0 = chebInit from rfl, hstep]
  have hNs : cfgC1.Nshots = 100 := rfl
  have hm0 : m ≠ 0 := by omega
  have hm100 : m ≤ 100 := by omega
  have hb : (1 / 40 : ℝ) ^ ((m : ℝ))⁻¹ ≤ 0.964 := by
    apply rpow_inv_le_of_le_pow (by norm_num) (by norm_num) hm0
    calc (1 / 40 : ℝ) ≤ (0.964 : ℝ) ^ 100 := by norm_num
      _ ≤ (0.964 : ℝ) ^ m := pow_le_pow_of_le_one (by norm_num) (by norm_num) hm100
  show 1 - (1 / 40 : ℝ) ^ ((m : ℝ))⁻¹ + 1e-15 - 0 > cfgC1.eps * 2
  have he : cfgC1.eps = 1 / 2000 := rfl
  rw [he]
  linarith

/-- C1 amended: what does hold is that the loop can only exit with final
width at most 2*eps (the while condition): every returned result has
ci_width = (p_max - p_min)/2 <= eps.  The iteration budget T only splits
the failure probability alpha; it does not bound the number of
iterations. -/
theorem chebpe_result_width (p_target : ℝ) (cfg : ChebCfg) (coins : ℕ → Bool)
    (fuel : ℕ) (res : ChebResult) (h : chebpe p_target cfg coins fuel = some res) :
    res.ci_width ≤ cfg.eps := by
  simp only [chebpe] at h
  split_ifs at h with h1 h2
  obtain rfl := Option.some.inj h
  push_neg at h2
  show ((chebpeRun cfg coins fuel).p_max - (chebpeRun cfg coins fuel).p_min) / 2 ≤ cfg.eps
  linarith

/-- C1 witness for the amended statement: with eps = 1 the loop exits
immediately (fuel 0) and the result has ci_width = 1/2 <= 1. -/
theorem chebpe_result_width_witness :
    chebpe (1 / 2) { eps := 1, alpha := 1 / 20, nu := 8, r := 2, Nshots := 100 }
        (fun _ => false) 0 =
      some { p_estimate := 1 / 2, exact_error := 0, ci_width := 1 / 2, num_oracle_calls := 0 } ∧
    ({ p_estimate := 1 / 2, exact_error := 0, ci_width := 1 / 2,
        num_oracle_calls := 0 } : ChebResult).ci_width ≤
      ({ eps := 1, alpha := 1 / 20, nu := 8, r := 2, Nshots := 100 } : ChebCfg).eps := by
  have hT : iterBudget (1 : ℝ) 2 = -1 := by
    unfold iterBudget
    rw [show (1 : ℝ) / (2 * 1) = 2⁻¹ by norm_num, Real.log_inv, neg_div,
      div_self (ne_of_gt (Real.log_pos (by norm_num)))]
    rw [show (-1 : ℝ) = ((-1 : ℤ) : ℝ) by push_cast; ring]
    exact Int.ceil_intCast (-1)
  have h : chebpe (1 / 2) { eps := 1, alpha := 1 / 20, nu := 8, r := 2, Nshots := 100 }
      (fun _ => false) 0 =
      some { p_estimate := 1 / 2, exact_error := 0, ci_width := 1 / 2,
             num_oracle_calls := 0 } := by
    norm_num [chebpe, chebpeRun, chebInit, hT]
  exact ⟨h, chebpe_result_width (1 / 2) _ _ 0 _ h⟩

end BudgetC1

section IntervalC9

/-- C9 concrete configuration: eps = 2^-20, alpha = 0.95, nu = 1, r = 2,
Nshots = 100.  The iteration budget is T = 19, so alpha_T = 0.05. -/
noncomputable def cfg9 : ChebCfg :=
  { eps := 1 / 1048576, alpha := 19 / 20, nu := 1, r := 2, Nshots := 100 }

/-- C9 oracle outcome stream: the first 100 tosses are heads, every later
toss is tails. -/
def coins9 : ℕ → Bool := fun i => decide (i < 100)

theorem iterBudget_C9 : iterBudget cfg9.eps cfg9.r = 19 := by
  show iterBudget (1 / 1048576 : ℝ) 2 = 19
  unfold iterBudget
  rw [show (1 : ℝ) / (2 * (1 / 1048576)) = 2 ^ (19 : ℕ) by norm_num, Real.log_pow,
    mul_div_assoc, div_self (ne_of_gt (Real.log_pos (by norm_num))), mul_one,
    show ((19 : ℕ) : ℝ) = ((19 : ℤ) : ℝ) by norm_num]
  exact Int.ceil_intCast 19

theorem alphaT_C9 : alphaT cfg9 = 1 / 20 := by
  unfold alphaT
  rw [iterBudget_C9]
  show (19 / 20 : ℝ) / ((19 : ℤ) : ℝ) = 1 / 20
  norm_num

/-- The lower Clopper-Pearson endpoint after 100 heads out of 100 at
alpha_T = 1/20: L9 = (1/40)^(1/100), approximately 0.963783. -/
noncomputable def L9 : ℝ := (1 / 40 : ℝ) ^ (((100 : ℕ) : ℝ))⁻¹

theorem L9_lb : (0.9637 : ℝ) ≤ L9 :=
  @le_rpow_inv_of_pow_le (1 / 40) 0.9637 100 (by norm_num) (by norm_num) (by norm_num)
    (by norm_num)

theorem L9_ub : L9 ≤ 0.9638 :=
  @rpow_inv_le_of_le_pow (1 / 40) 0.9638 100 (by norm_num) (by norm_num) (by norm_num)
    (by norm_num)

/-- Quadratic Taylor upper bound for cos on [0, 1]. -/
theorem cos_le_quad (x : ℝ) (h0 : 0 ≤ x) (h1 : x ≤ 1) :
    Real.cos x ≤ 1 - x ^ 2 / 2 + x ^ 4 * (5 / 96) := by
  have h := Real.cos_bound (show |x| ≤ 1 by rw [abs_of_nonneg h0]; exact h1)
  rw [abs_of_nonneg h0] at h
  have h2 := abs_le.mp h
  linarith [h2.2]

/-- Quadratic Taylor lower bound for cos on [0, 1]. -/
theorem quad_le_cos (x : ℝ) (h0 : 0 ≤ x) (h1 : x ≤ 1) :
    1 - x ^ 2 / 2 - x ^ 4 * (5 / 96) ≤ Real.cos x := by
  have h := Real.cos_bound (show |x| ≤ 1 by rw [abs_of_nonneg h0]; exact h1)
  rw [abs_of_nonneg h0] at h
  have h2 := abs_le.mp h
  linarith [h2.1]

theorem cos_pi16_ub : Real.cos (Real.pi / 16) ≤ 0.98081 := by
  have hx : (0.1963495 : ℝ) ≤ Real.pi / 16 := by linarith [Real.pi_gt_d6]
  have h1 := Real.cos_le_cos_of_nonneg_of_le_pi (by norm_num)
    (by linarith [Real.pi_pos]) hx
  have h2 := cos_le_quad 0.1963495 (by norm_num) (by norm_num)
  have h3 : (1 : ℝ) - 0.1963495 ^ 2 / 2 + 0.1963495 ^ 4 * (5 / 96) ≤ 0.98081 := by
    norm_num
  linarith

theorem cos_pi18_lb : (0.98472 : ℝ) ≤ Real.cos (Real.pi / 18) := by
  have hx : Real.pi / 18 ≤ 0.174533 := by linarith [Real.pi_lt_d6]
  have h1 := Real.cos_le_cos_of_nonneg_of_le_pi
    (by linarith [Real.pi_pos] : (0:ℝ) ≤ Real.pi / 18)
    (by linarith [Real.pi_gt_d6] : (0.174533 : ℝ) ≤ Real.pi) hx
  have h2 := quad_le_cos 0.174533 (by norm_num) (by norm_num)
  have h3 : (0.98472 : ℝ) ≤ 1 - 0.174533 ^ 2 / 2 - 0.174533 ^ 4 * (5 / 96) := by
    norm_num
  linarith

theorem cos_pi14_ub : Real.cos (Real.pi / 14) ≤ 0.974955 := by
  have hx : (0.2243994 : ℝ) ≤ Real.pi / 14 := by linarith [Real.pi_gt_d6]
  have h1 := Real.cos_le_cos_of_nonneg_of_le_pi (by norm_num)
    (by linarith [Real.pi_pos]) hx
  have h2 := cos_le_quad 0.2243994 (by norm_num) (by norm_num)
  have h3 : (1 : ℝ) - 0.2243994 ^ 2 / 2 + 0.2243994 ^ 4 * (5 / 96) ≤ 0.974955 := by
    norm_num
  linarith

theorem cos_03845_ub : Real.cos (0.3845 : ℝ) ≤ 0.927219 := by
  have h2 := cos_le_quad 0.3845 (by norm_num) (by norm_num)
  have h3 : (1 : ℝ) - 0.3845 ^ 2 / 2 + 0.3845 ^ 4 * (5 / 96) ≤ 0.927219 := by norm_num
  linarith

theorem cos_0196935_ub : Real.cos (0.196935 : ℝ) ≤ 0.980687 := by
  have h2 := cos_le_quad 0.196935 (by norm_num) (by norm_num)
  have h3 : (1 : ℝ) - 0.196935 ^ 2 / 2 + 0.196935 ^ 4 * (5 / 96) ≤ 0.980687 := by
    norm_num
  linarith


/-- The angle of the running interval's lower endpoint entering
iteration 2. -/
noncomputable def theta9 : ℝ := Real.arccos (Real.sqrt (L9 - 1e-15))

theorem L9e_nonneg : (0 : ℝ) ≤ L9 - 1e-15 := by linarith [L9_lb]

theorem L9e_le_one : L9 - 1e-15 ≤ 1 := by linarith [L9_ub]

theorem cos_theta9 : Real.cos theta9 = Real.sqrt (L9 - 1e-15) :=
  Real.cos_arccos (le_trans (by norm_num) (Real.sqrt_nonneg _))
    (Real.sqrt_le_one.mpr L9e_le_one)

theorem theta9_pos : 0 < theta9 := by
  apply Real.arccos_pos.mpr
  rw [show (1 : ℝ) = Real.sqrt 1 from Real.sqrt_one.symm]
  exact Real.sqrt_lt_sqrt L9e_nonneg (by linarith [L9_ub])

theorem theta9_le_pi : theta9 ≤ Real.pi := Real.arccos_le_pi _

theorem theta9_le_pi16 : theta9 ≤ Real.pi / 16 := by
  by_contra hlt
  push_neg at hlt
  have h1 := Real.cos_le_cos_of_nonneg_of_le_pi (by positivity) theta9_le_pi hlt.le
  rw [cos_theta9] at h1
  have h3 := le_trans h1 cos_pi16_ub
  have h4 := Real.sq_sqrt L9e_nonneg
  nlinarith [L9_lb, Real.sqrt_nonneg (L9 - 1e-15)]

theorem theta9_gt_pi18 : Real.pi / 18 < theta9 := by
  by_contra hle
  push_neg at hle
  have h1 := Real.cos_le_cos_of_nonneg_of_le_pi theta9_pos.le
    (by linarith [Real.pi_pos] : Real.pi / 18 ≤ Real.pi) hle
  rw [cos_theta9] at h1
  have h2 := le_trans cos_pi18_lb h1
  have h4 := Real.sq_sqrt L9e_nonneg
  nlinarith [L9_ub]

theorem theta9_lt_pi14 : theta9 < Real.pi / 14 := by
  by_contra hle
  push_neg at hle
  have h1 := Real.cos_le_cos_of_nonneg_of_le_pi (by positivity) theta9_le_pi hle
  rw [cos_theta9] at h1
  have h3 := le_trans h1 cos_pi14_ub
  have h4 := Real.sq_sqrt L9e_nonneg
  nlinarith [L9_lb, Real.sqrt_nonneg (L9 - 1e-15)]

/-- The angle arccos(2 L9 - 1) used by the iteration-2 inversion of the
upper statistic bound. -/
noncomputable def psi9 : ℝ := Real.arccos (2 * L9 - 1)

theorem psi9_le_pi : psi9 ≤ Real.pi := Real.arccos_le_pi _

theorem psi9_ub : psi9 ≤ 0.3845 := by
  by_contra hlt
  push_neg at hlt
  have h1 := Real.cos_le_cos_of_nonneg_of_le_pi (by norm_num) psi9_le_pi hlt.le
  rw [show Real.cos psi9 = 2 * L9 - 1 from
    Real.cos_arccos (by linarith [L9_lb]) (by linarith [L9_ub])] at h1
  have h2 := le_trans h1 cos_03845_ub
  linarith [L9_lb]

theorem a9_ub : Real.cos (Real.pi / 14) ^ 2 ≤ 0.95054 := by
  have h2 : (0 : ℝ) ≤ Real.cos (Real.pi / 14) :=
    Real.cos_nonneg_of_mem_Icc ⟨by linarith [Real.pi_pos], by linarith [Real.pi_pos]⟩
  nlinarith [cos_pi14_ub, h2]

theorem b9_ub : Real.cos ((Real.pi - psi9) / 14) ^ 2 ≤ 0.96175 := by
  have hpsi0 : 0 ≤ psi9 := Real.arccos_nonneg _
  have hpsiπ : psi9 ≤ Real.pi := psi9_le_pi
  have hlb : (0.196935 : ℝ) ≤ (Real.pi - psi9) / 14 := by
    linarith [Real.pi_gt_d6, psi9_ub]
  have h1 := Real.cos_le_cos_of_nonneg_of_le_pi (by norm_num)
    (by linarith [Real.pi_pos] : (Real.pi - psi9) / 14 ≤ Real.pi) hlb
  have h2 : (0 : ℝ) ≤ Real.cos ((Real.pi - psi9) / 14) :=
    Real.cos_nonneg_of_mem_Icc ⟨by linarith [Real.pi_pos], by linarith [Real.pi_pos]⟩
  have h3 := le_trans h1 cos_0196935_ub
  nlinarith [h2, h3]

theorem confint_tails_C9 : proportion_confint 0 100 (1 / 20) = (0, 1 - L9) := by
  rw [confint_all_tails 100 (by norm_num) (1 / 20) (by norm_num) (by norm_num),
    show (1 / 20 : ℝ) / 2 = 1 / 40 by norm_num]
  rfl

theorem confint_heads_C9 : proportion_confint 100 100 (1 / 20) = (L9, 1) := by
  rw [confint_all_heads 100 (by norm_num) (1 / 20) (by norm_num) (by norm_num),
    show (1 / 20 : ℝ) / 2 = 1 / 40 by norm_num]
  rfl

theorem errMax_C9_lb : (181 / 10000 : ℝ) ≤ errMax cfg9 := by
  have h := err_max_ge_tails (alphaT cfg9) cfg9.Nshots
  rw [show cfg9.Nshots = 100 from rfl, alphaT_C9, confint_tails_C9] at h
  dsimp only at h
  show (181 / 10000 : ℝ) ≤ max_error_cp (alphaT cfg9) cfg9.Nshots
  rw [show cfg9.Nshots = 100 from rfl, alphaT_C9]
  linarith [L9_ub]

/-- countHeads when every toss in the window is heads. -/
theorem countHeads_all (coins : ℕ → Bool) (start n : ℕ)
    (h : ∀ i, i < n → coins (start + i) = true) : countHeads coins start n = n := by
  unfold countHeads
  rw [List.filter_eq_self.mpr fun a ha => h a (List.mem_range.mp ha), List.length_range]

/-- countHeads when every toss in the window is tails. -/
theorem countHeads_none (coins : ℕ → Bool) (start n : ℕ)
    (h : ∀ i, i < n → coins (start + i) = false) : countHeads coins start n = 0 := by
  unfold countHeads
  rw [List.filter_eq_nil_iff.mpr fun a ha => by
    rw [h a (List.mem_range.mp ha)]; exact Bool.false_ne_true]
  rfl


/-- After the first iteration on an all-heads batch the state is
[(alpha_T/2)^(1/Nshots) - 1e-15, 1] with the full batch of Nshots shots
taken at degree 1 (hypothesis hem makes the early/late test pick the full
batch). -/
theorem chebpeStep_init_heads (cfg : ChebCfg) (coins : ℕ → Bool)
    (hα : alphaT cfg = 1 / 20) (hN : cfg.Nshots ≠ 0)
    (hem : cfg.nu * cfg.eps ≤ errMax cfg)
    (hcoins : ∀ i, i < cfg.Nshots → coins i = true) :
    chebpeStep cfg coins chebInit =
      { p_min := (1 / 40 : ℝ) ^ ((cfg.Nshots : ℝ))⁻¹ - 1e-15, p_max := 1,
        k := 0, num_flips := cfg.Nshots, num_heads := cfg.Nshots,
        queries := cfg.Nshots, tosses := cfg.Nshots } := by
  have hfind : find_next_k (0 : ℝ) 1 0 = none := find_next_k_01 0 le_rfl
  simp only [chebpeStep, chebInit, Nat.cast_zero, mul_zero, hfind]
  have hgap : cheb (0 + 1) (Real.sqrt 1) ^ 2 - cheb (0 + 1) (Real.sqrt 0) ^ 2 = 1 := by
    rw [cheb_at_one, show (0 + 1 : ℕ) = 1 from rfl, Real.sqrt_zero, cheb_one_eval]
    norm_num
  have hdec : shotsDecision (errMax cfg) (1 - 0)
      (cheb (0 + 1) (Real.sqrt 1) ^ 2 - cheb (0 + 1) (Real.sqrt 0) ^ 2)
      (cfg.nu * cfg.eps) cfg.Nshots = cfg.Nshots := by
    rw [hgap]
    unfold shotsDecision
    rw [if_neg one_ne_zero, if_neg (show ¬(errMax cfg * (1 - 0) / 1 < cfg.nu * cfg.eps) by
      push_neg
      rw [show errMax cfg * (1 - 0) / 1 = errMax cfg by ring]
      exact hem)]
  rw [hdec]
  have hch : countHeads coins 0 cfg.Nshots = cfg.Nshots :=
    countHeads_all coins 0 cfg.Nshots fun i hi => by rw [Nat.zero_add]; exact hcoins i hi
  rw [hch]
  simp only [Nat.zero_add, Nat.add_zero, Nat.mul_one, zero_add, add_zero, mul_one]
  rw [hα, confint_all_heads cfg.Nshots hN (1 / 20) (by norm_num) (by norm_num),
    show (1 / 20 : ℝ) / 2 = 1 / 40 by norm_num]
  set Lc := (1 / 40 : ℝ) ^ ((cfg.Nshots : ℝ))⁻¹ with hLc
  have hLc0 : 0 ≤ Lc := Real.rpow_nonneg (by norm_num) _
  have hLc1 : Lc ≤ 1 := Real.rpow_le_one (by norm_num) (by norm_num) (by positivity)
  have hLcge : (1 / 40 : ℝ) ≤ Lc := by
    apply le_rpow_inv_of_pow_le (by norm_num) (by norm_num) hN
    calc ((1 : ℝ) / 40) ^ cfg.Nshots ≤ (1 / 40) ^ 1 := by
          apply pow_le_pow_of_le_one (by norm_num) (by norm_num)
          omega
      _ = 1 / 40 := by norm_num
  dsimp only
  have hinvL : invert_T2rootp Lc 1 (1 / 2) = Lc :=
    invert_T2rootp_n1 Lc (1 / 2) hLc0 hLc1 (by norm_num)
  have hinv1 : invert_T2rootp 1 1 (1 / 2) = 1 :=
    invert_T2rootp_n1 1 (1 / 2) (by norm_num) le_rfl (by norm_num)
  rw [hinvL, hinv1, min_eq_left hLc1, max_eq_right hLc1,
    max_eq_right (by linarith : (0 : ℝ) ≤ Lc - 1e-15),
    min_eq_left (by norm_num : (1 : ℝ) ≤ 1 + 1e-15)]

/-- The state of the C9 run after its first iteration. -/
noncomputable def state9_1 : ChebState :=
  { p_min := L9 - 1e-15, p_max := 1, k := 0, num_flips := 100, num_heads := 100,
    queries := 100, tosses := 100 }

theorem run1_C9 : chebpeRun cfg9 coins9 1 = state9_1 := by
  rw [show (1 : ℕ) = 0 + 1 from rfl, chebpeRun_succ,
    if_pos (by norm_num [chebpeRun, chebInit, cfg9]),
    show chebpeRun cfg9 coins9 0 = chebInit from rfl,
    chebpeStep_init_heads cfg9 coins9 alphaT_C9 (by norm_num [cfg9])
      (le_trans (by norm_num [cfg9]) errMax_C9_lb)
      (fun i hi => by
        simp only [coins9, decide_eq_true_eq]
        exact hi)]
  rfl


/-- When the hint's angle lies in the first monotone lobe (t = 0), the
inversion returns cos(arccos(2 T2 - 1)/(2n))^2. -/
theorem invert_t0 (T2 p_int : ℝ) (n : ℕ)
    (hti : Real.arccos (Real.sqrt p_int) < Real.pi / (2 * n)) :
    invert_T2rootp T2 n p_int =
      Real.cos (Real.arccos (2 * T2 - 1) / (2 * n)) ^ 2 := by
  simp only [invert_T2rootp]
  have hc : (0 : ℝ) < Real.pi / (2 * n) := lt_of_le_of_lt (Real.arccos_nonneg _) hti
  have ht : ⌊Real.arccos (Real.sqrt p_int) / (Real.pi / (2 * (n : ℝ)))⌋ = 0 := by
    rw [Int.floor_eq_zero_iff]
    constructor
    · exact div_nonneg (Real.arccos_nonneg _) hc.le
    · rw [div_lt_one hc]
      exact hti
  rw [ht]
  norm_num

theorem find_C9 : find_next_k (L9 - 1e-15) 1 0 = some 3 := by
  have hπ := Real.pi_pos
  have h16 := theta9_le_pi16
  have h18 := theta9_gt_pi18
  have h14 := theta9_lt_pi14
  have hpos := theta9_pos
  simp only [find_next_k, Real.sqrt_one, Real.arccos_one, sub_zero]
  rw [show Real.arccos (Real.sqrt (L9 - 1e-15)) = theta9 from rfl]
  have h8 : ⌊Real.pi / 2 / theta9⌋ = 8 := by
    rw [Int.floor_eq_iff]
    push_cast
    constructor
    · rw [le_div_iff hpos]
      linarith
    · rw [div_lt_iff hpos]
      linarith
  rw [h8]
  norm_num
  rw [show Int.toNat 9 = 9 from rfl]
  rw [findAux]
  rw [if_pos (by push_cast; norm_num : ((9 : ℕ) : ℝ) > 2 * (0 : ℝ) + 1)]
  rw [if_neg (show ¬(⌊2 * ((9 : ℕ) : ℝ) * 0 / Real.pi⌋ =
      ⌊2 * ((9 : ℕ) : ℝ) * theta9 / Real.pi⌋) by
    have hl : ⌊2 * ((9 : ℕ) : ℝ) * 0 / Real.pi⌋ = 0 := by norm_num
    have hr : ⌊2 * ((9 : ℕ) : ℝ) * theta9 / Real.pi⌋ = 1 := by
      rw [Int.floor_eq_iff]
      push_cast
      constructor
      · rw [le_div_iff hπ]
        linarith
      · rw [div_lt_iff hπ]
        linarith
    rw [hl, hr]
    norm_num)]
  rw [dif_pos (by norm_num : 2 ≤ 9)]
  rw [show (9 - 2 : ℕ) = 7 from rfl]
  rw [findAux]
  rw [if_pos (by push_cast; norm_num : ((7 : ℕ) : ℝ) > 2 * (0 : ℝ) + 1)]
  rw [if_pos (show ⌊2 * ((7 : ℕ) : ℝ) * 0 / Real.pi⌋ =
      ⌊2 * ((7 : ℕ) : ℝ) * theta9 / Real.pi⌋ by
    have hr : ⌊2 * ((7 : ℕ) : ℝ) * theta9 / Real.pi⌋ = 0 := by
      rw [Int.floor_eq_zero_iff]
      constructor
      · positivity
      · rw [div_lt_one hπ]
        push_cast
        linarith
    rw [hr]
    norm_num)]


theorem step2_C9 :
    chebpeStep cfg9 coins9 state9_1 =
      { p_min := L9 - 1e-15,
        p_max := Real.cos ((Real.pi - psi9) / 14) ^ 2 + 1e-15,
        k := 3, num_flips := 100, num_heads := 0, queries := 800, tosses := 200 } := by
  have hπ := Real.pi_pos
  simp only [chebpeStep, state9_1, Nat.cast_zero, mul_zero, find_C9]
  have hc7 : cheb (2 * 3 + 1) (Real.sqrt (L9 - 1e-15)) = Real.cos (7 * theta9) := by
    rw [show Real.sqrt (L9 - 1e-15) = Real.cos theta9 from cos_theta9.symm, cheb_cos]
    norm_num
  have h7a : 7 * theta9 ≤ Real.pi / 2 := by linarith [theta9_lt_pi14]
  have h7b : 0 < 7 * theta9 := by linarith [theta9_gt_pi18]
  have hcos7_nonneg : 0 ≤ Real.cos (7 * theta9) :=
    Real.cos_nonneg_of_mem_Icc ⟨by linarith, h7a⟩
  have hcos7_lt1 : Real.cos (7 * theta9) < 1 := by
    have h := Real.cos_lt_cos_of_nonneg_of_le_pi le_rfl (by linarith) h7b
    rwa [Real.cos_zero] at h
  have hgap : (0 : ℝ) < cheb (2 * 3 + 1) (Real.sqrt 1) ^ 2 -
      cheb (2 * 3 + 1) (Real.sqrt (L9 - 1e-15)) ^ 2 := by
    rw [cheb_at_one, hc7]
    nlinarith
  have hgap1 : cheb (2 * 3 + 1) (Real.sqrt 1) ^ 2 -
      cheb (2 * 3 + 1) (Real.sqrt (L9 - 1e-15)) ^ 2 ≤ 1 := by
    rw [cheb_at_one, hc7]
    nlinarith
  have hlate : ¬(errMax cfg9 * (1 - (L9 - 1e-15)) /
      (cheb (2 * 3 + 1) (Real.sqrt 1) ^ 2 -
        cheb (2 * 3 + 1) (Real.sqrt (L9 - 1e-15)) ^ 2) < cfg9.nu * cfg9.eps) := by
    push_neg
    rw [show cfg9.nu * cfg9.eps = 1 / 1048576 by norm_num [cfg9]]
    rw [le_div_iff hgap]
    have hwge : (362 / 10000 : ℝ) ≤ 1 - (L9 - 1e-15) := by linarith [L9_ub]
    have h2 : (181 / 10000 : ℝ) * (362 / 10000) ≤ errMax cfg9 * (1 - (L9 - 1e-15)) :=
      mul_le_mul errMax_C9_lb hwge (by norm_num) (le_trans (by norm_num) errMax_C9_lb)
    nlinarith [hgap1]
  have hdec : shotsDecision (errMax cfg9) (1 - (L9 - 1e-15))
      (cheb (2 * 3 + 1) (Real.sqrt 1) ^ 2 -
        cheb (2 * 3 + 1) (Real.sqrt (L9 - 1e-15)) ^ 2)
      (cfg9.nu * cfg9.eps) cfg9.Nshots = 100 := by
    unfold shotsDecision
    rw [if_neg (ne_of_gt hgap), if_neg hlate]
    rfl
  rw [hdec]
  have hch : countHeads coins9 100 100 = 0 :=
    countHeads_none coins9 100 100 fun i hi => by
      simp only [coins9, decide_eq_false_iff_not]
      omega
  rw [hch]
  simp only [Nat.zero_add, Nat.add_zero, zero_add, add_zero]
  rw [alphaT_C9, confint_tails_C9]
  dsimp only
  have hp9 : Real.arccos (Real.sqrt ((L9 - 1e-15 + 1) / 2)) <
      Real.pi / (2 * ((2 * 3 + 1 : ℕ) : ℝ)) := by
    rw [show (2 * ((2 * 3 + 1 : ℕ) : ℝ)) = 14 by norm_num]
    by_contra hle
    push_neg at hle
    have h1lt : (L9 - 1e-15 + 1) / 2 ≤ 1 := by linarith [L9_ub]
    have h0le : (0 : ℝ) ≤ (L9 - 1e-15 + 1) / 2 := by linarith [L9_lb]
    have h2 := Real.cos_le_cos_of_nonneg_of_le_pi (by positivity)
      (Real.arccos_le_pi _) hle
    rw [Real.cos_arccos (le_trans (by norm_num) (Real.sqrt_nonneg _))
      (Real.sqrt_le_one.mpr h1lt)] at h2
    have h3 := le_trans h2 cos_pi14_ub
    have h4 := Real.sq_sqrt h0le
    nlinarith [L9_lb, Real.sqrt_nonneg ((L9 - 1e-15 + 1) / 2)]
  have hai : invert_T2rootp 0 (2 * 3 + 1) ((L9 - 1e-15 + 1) / 2) =
      Real.cos (Real.pi / 14) ^ 2 := by
    rw [invert_t0 0 _ (2 * 3 + 1) hp9]
    norm_num [Real.arccos_neg_one]
  have hbi : invert_T2rootp (1 - L9) (2 * 3 + 1) ((L9 - 1e-15 + 1) / 2) =
      Real.cos ((Real.pi - psi9) / 14) ^ 2 := by
    rw [invert_t0 (1 - L9) _ (2 * 3 + 1) hp9,
      show 2 * (1 - L9) - 1 = -(2 * L9 - 1) by ring, Real.arccos_neg]
    norm_num [psi9]
  rw [hai, hbi]
  have hpsi0 : 0 ≤ psi9 := Real.arccos_nonneg _
  have hθb0 : 0 ≤ (Real.pi - psi9) / 14 := by linarith [psi9_le_pi]
  have hθba : (Real.pi - psi9) / 14 ≤ Real.pi / 14 := by linarith
  have hcosa0 : 0 ≤ Real.cos (Real.pi / 14) :=
    Real.cos_nonneg_of_mem_Icc ⟨by linarith, by linarith⟩
  have hab : Real.cos (Real.pi / 14) ^ 2 ≤ Real.cos ((Real.pi - psi9) / 14) ^ 2 :=
    pow_le_pow_left₀ hcosa0
      (Real.cos_le_cos_of_nonneg_of_le_pi hθb0 (by linarith) hθba) 2
  rw [min_eq_left hab, max_eq_right hab,
    max_eq_left (by nlinarith [a9_ub, L9_lb] :
      Real.cos (Real.pi / 14) ^ 2 - 1e-15 ≤ L9 - 1e-15),
    min_eq_right (by nlinarith [b9_ub] :
      Real.cos ((Real.pi - psi9) / 14) ^ 2 + 1e-15 ≤ 1)]


/-- C9 counterexample: with eps = 2^-20, alpha = 0.95, nu = 1, r = 2,
Nshots = 100, on the oracle outcome stream of 100 heads followed by all
tails, after two iterations the running interval satisfies
p_max < p_min: iteration 2's inverted interval lies strictly below the
running lower bound, and the max/min intersection update leaves the
bounds out of order, so p_min <= p_max is not maintained for every
outcome sequence. -/
theorem interval_order_counterexample :
    (chebpeRun cfg9 coins9 2).p_max < (chebpeRun cfg9 coins9 2).p_min := by
  have hguard : state9_1.p_max - state9_1.p_min > cfg9.eps * 2 := by
    show (1 : ℝ) - (L9 - 1e-15) > 1 / 1048576 * 2
    linarith [L9_ub]
  have hrun2 : chebpeRun cfg9 coins9 2 = chebpeStep cfg9 coins9 state9_1 := by
    rw [show (2 : ℕ) = 1 + 1 from rfl, chebpeRun_succ, run1_C9, if_pos hguard]
  rw [hrun2, step2_C9]
  dsimp only
  linarith [b9_ub, L9_lb]

/-- The inverted candidate interval (p_min_star, p_max_star) computed by
one iteration of the loop, before it is intersected with the running
interval (steps 4(a)-4(e) of chebpe). -/
noncomputable def stepStars (cfg : ChebCfg) (coins : ℕ → Bool) (s : ChebState) : ℝ × ℝ :=
  let s1 :=
    match find_next_k s.p_min s.p_max (cfg.r * s.k) with
    | some new_k => { s with k := new_k, num_flips := 0, num_heads := 0 }
    | none => s
  let n := 2 * s1.k + 1
  let gap := cheb n (Real.sqrt s1.p_max) ^ 2 - cheb n (Real.sqrt s1.p_min) ^ 2
  let Nshots_i := shotsDecision (errMax cfg) (s1.p_max - s1.p_min) gap
    (cfg.nu * cfg.eps) cfg.Nshots
  let h := countHeads coins s1.tosses Nshots_i
  let s2 := { s1 with
    num_heads := s1.num_heads + h
    num_flips := s1.num_flips + Nshots_i
    queries := s1.queries + Nshots_i * n
    tosses := s1.tosses + Nshots_i }
  let ci := proportion_confint s2.num_heads s2.num_flips (alphaT cfg)
  let p_int := (s2.p_min + s2.p_max) / 2
  let a := invert_T2rootp ci.1 n p_int
  let b := invert_T2rootp ci.2 n p_int
  (min a b - 1e-15, max a b + 1e-15)

/-- The interval written by one loop iteration is exactly the intersection
of the previous interval with the candidate interval. -/
theorem chebpeStep_stars (cfg : ChebCfg) (coins : ℕ → Bool) (s : ChebState) :
    (chebpeStep cfg coins s).p_min = max s.p_min (stepStars cfg coins s).1 ∧
    (chebpeStep cfg coins s).p_max = min s.p_max (stepStars cfg coins s).2 := by
  unfold chebpeStep stepStars
  rcases h : find_next_k s.p_min s.p_max (cfg.r * s.k) with _ | nk <;>
    simp only [h] <;> exact ⟨by trivial, by trivial⟩

theorem star_pair_bounds (a b : ℝ) (ha1 : a ≤ 1) (ha0 : 0 ≤ a) :
    min a b - 1e-15 ≤ max a b + 1e-15 ∧ min a b - 1e-15 ≤ 1 ∧
      0 ≤ max a b + 1e-15 := by
  have hmm := @min_le_max ℝ _ a b
  exact ⟨by linarith, by linarith [min_le_left a b], by linarith [le_max_left a b]⟩

/-- The candidate interval is always ordered, its lower end is at most 1
and its upper end at least 0: both endpoints are inverted statistics,
that is values of cos^2. -/
theorem stepStars_bounds (cfg : ChebCfg) (coins : ℕ → Bool) (s : ChebState) :
    (stepStars cfg coins s).1 ≤ (stepStars cfg coins s).2 ∧
    (stepStars cfg coins s).1 ≤ 1 ∧ 0 ≤ (stepStars cfg coins s).2 := by
  have hle1 : ∀ (T2 : ℝ) (n : ℕ) (p_int : ℝ), invert_T2rootp T2 n p_int ≤ 1 := by
    intro T2 n p_int
    simp only [invert_T2rootp]
    exact Real.cos_sq_le_one _
  have hge0 : ∀ (T2 : ℝ) (n : ℕ) (p_int : ℝ), 0 ≤ invert_T2rootp T2 n p_int := by
    intro T2 n p_int
    simp only [invert_T2rootp]
    exact sq_nonneg _
  unfold stepStars
  rcases h : find_next_k s.p_min s.p_max (cfg.r * s.k) with _ | nk <;>
    simp only [h] <;> exact star_pair_bounds _ _ (hle1 _ _ _) (hge0 _ _ _)

/-- C9 amended: the interval always narrows (p_min never decreases and
p_max never increases), and the order p_min <= p_max is preserved by an
iteration precisely when the candidate interval still meets the running
one (p_min_star <= p_max and p_min <= p_max_star); the counterexample
shows that without this meeting condition the order can break. -/
theorem interval_order_amended (cfg : ChebCfg) (coins : ℕ → Bool) (s : ChebState)
    (h : s.p_min ≤ s.p_max)
    (h1 : (stepStars cfg coins s).1 ≤ s.p_max)
    (h2 : s.p_min ≤ (stepStars cfg coins s).2) :
    (chebpeStep cfg coins s).p_min ≤ (chebpeStep cfg coins s).p_max := by
  obtain ⟨e1, e2⟩ := chebpeStep_stars cfg coins s
  rw [e1, e2]
  obtain ⟨hstar, -, -⟩ := stepStars_bounds cfg coins s
  exact max_le (le_min h h2) (le_min h1 hstar)

/-- C9 amended witness: at the initial state [0, 1] the meeting
hypotheses hold for any configuration and the conclusion follows. -/
theorem interval_order_amended_witness :
    chebInit.p_min ≤ chebInit.p_max ∧
    (stepStars cfgC10 (fun _ => false) chebInit).1 ≤ chebInit.p_max ∧
    chebInit.p_min ≤ (stepStars cfgC10 (fun _ => false) chebInit).2 ∧
    (chebpeStep cfgC10 (fun _ => false) chebInit).p_min ≤
      (chebpeStep cfgC10 (fun _ => false) chebInit).p_max := by
  have h : chebInit.p_min ≤ chebInit.p_max := by norm_num [chebInit]
  have hb := stepStars_bounds cfgC10 (fun _ => false) chebInit
  have h1 : (stepStars cfgC10 (fun _ => false) chebInit).1 ≤ chebInit.p_max := by
    rw [show chebInit.p_max = 1 from rfl]
    exact hb.2.1
  have h2 : chebInit.p_min ≤ (stepStars cfgC10 (fun _ => false) chebInit).2 := by
    rw [show chebInit.p_min = (0 : ℝ) from rfl]
    exact hb.2.2
  exact ⟨h, h1, h2, interval_order_amended cfgC10 (fun _ => false) chebInit h h1 h2⟩

end IntervalC9

section FindNextK

/-- Core computation for the same-lobe property: if the two endpoint
angles share the floor t of 2 n theta / pi, then for any x < y in the
interval the statistic values are 1/2 + cos(v + t pi)/2 with angle
offsets 0 <= vy < vx < pi. -/
theorem sameLobe_core (p_min p_max : ℝ) (n : ℕ) (hn : 0 < n)
    (h0 : 0 ≤ p_min) (h1 : p_max ≤ 1)
    (hfl : ⌊2 * (n : ℝ) * Real.arccos (Real.sqrt p_max) / Real.pi⌋ =
      ⌊2 * (n : ℝ) * Real.arccos (Real.sqrt p_min) / Real.pi⌋)
    (x y : ℝ) (hx : x ∈ Set.Icc p_min p_max) (hy : y ∈ Set.Icc p_min p_max)
    (hxy : x < y) :
    ∃ vx vy : ℝ, 0 ≤ vy ∧ vy < vx ∧ vx < Real.pi ∧
      cheb n (Real.sqrt x) ^ 2 = 1 / 2 + Real.cos (vx +
        (⌊2 * (n : ℝ) * Real.arccos (Real.sqrt p_max) / Real.pi⌋ : ℝ) * Real.pi) / 2 ∧
      cheb n (Real.sqrt y) ^ 2 = 1 / 2 + Real.cos (vy +
        (⌊2 * (n : ℝ) * Real.arccos (Real.sqrt p_max) / Real.pi⌋ : ℝ) * Real.pi) / 2 := by
  have hπ := Real.pi_pos
  obtain ⟨hx1, hx2⟩ := hx
  obtain ⟨hy1, hy2⟩ := hy
  have hx0 : 0 ≤ x := le_trans h0 hx1
  have hy0 : 0 ≤ y := le_trans h0 hy1
  have hxle1 : x ≤ 1 := le_trans hx2 h1
  have hyle1 : y ≤ 1 := le_trans hy2 h1
  have hpmin1 : p_min ≤ 1 := le_trans hx1 hxle1
  have hpmax0 : 0 ≤ p_max := le_trans hx0 hx2
  have hmem : ∀ p : ℝ, 0 ≤ p → p ≤ 1 → Real.sqrt p ∈ Set.Icc (-1 : ℝ) 1 :=
    fun p _ hp1 => ⟨le_trans (by norm_num) (Real.sqrt_nonneg p), Real.sqrt_le_one.mpr hp1⟩
  have hθyx : Real.arccos (Real.sqrt y) < Real.arccos (Real.sqrt x) :=
    Real.strictAntiOn_arccos (hmem x hx0 hxle1) (hmem y hy0 hyle1)
      (Real.sqrt_lt_sqrt hx0 hxy)
  have hθx_le : Real.arccos (Real.sqrt x) ≤ Real.arccos (Real.sqrt p_min) :=
    Real.strictAntiOn_arccos.antitoneOn (hmem p_min h0 hpmin1)
      (hmem x hx0 hxle1) (Real.sqrt_le_sqrt hx1)
  have hθy_ge : Real.arccos (Real.sqrt p_max) ≤ Real.arccos (Real.sqrt y) :=
    Real.strictAntiOn_arccos.antitoneOn (hmem y hy0 hyle1)
      (hmem p_max hpmax0 h1) (Real.sqrt_le_sqrt hy2)
  set t : ℤ := ⌊2 * (n : ℝ) * Real.arccos (Real.sqrt p_max) / Real.pi⌋ with ht
  have hlow : (t : ℝ) ≤ 2 * (n : ℝ) * Real.arccos (Real.sqrt p_max) / Real.pi :=
    Int.floor_le _
  have hhigh : 2 * (n : ℝ) * Real.arccos (Real.sqrt p_min) / Real.pi < (t : ℝ) + 1 := by
    have hteq : t = ⌊2 * (n : ℝ) * Real.arccos (Real.sqrt p_min) / Real.pi⌋ := hfl
    rw [hteq]
    exact Int.lt_floor_add_one _
  have hn0 : (0 : ℝ) < 2 * (n : ℝ) := by positivity
  have hy_lo : (t : ℝ) ≤ 2 * (n : ℝ) * Real.arccos (Real.sqrt y) / Real.pi := by
    refine le_trans hlow ((div_le_div_right hπ).mpr ?_)
    exact mul_le_mul_of_nonneg_left hθy_ge hn0.le
  have hx_hi : 2 * (n : ℝ) * Real.arccos (Real.sqrt x) / Real.pi < (t : ℝ) + 1 := by
    refine lt_of_le_of_lt ((div_le_div_right hπ).mpr ?_) hhigh
    exact mul_le_mul_of_nonneg_left hθx_le hn0.le
  have hval : ∀ p : ℝ, 0 ≤ p → p ≤ 1 → cheb n (Real.sqrt p) ^ 2 =
      1 / 2 + Real.cos ((2 * (n : ℝ) * Real.arccos (Real.sqrt p) - t * Real.pi) +
        (t : ℝ) * Real.pi) / 2 := by
    intro p _ hp1
    have hg : cheb n (Real.sqrt p) = Real.cos ((n : ℝ) * Real.arccos (Real.sqrt p)) := by
      conv_lhs => rw [show Real.sqrt p = Real.cos (Real.arccos (Real.sqrt p)) from
        (Real.cos_arccos (le_trans (by norm_num) (Real.sqrt_nonneg p))
          (Real.sqrt_le_one.mpr hp1)).symm]
      exact cheb_cos n _
    rw [hg, Real.cos_sq, show (2 * (n : ℝ) * Real.arccos (Real.sqrt p) - t * Real.pi) +
      (t : ℝ) * Real.pi = 2 * ((n : ℝ) * Real.arccos (Real.sqrt p)) by ring]
  refine ⟨2 * (n : ℝ) * Real.arccos (Real.sqrt x) - t * Real.pi,
    2 * (n : ℝ) * Real.arccos (Real.sqrt y) - t * Real.pi, ?_, ?_, ?_,
    hval x hx0 hxle1, hval y hy0 hyle1⟩
  · have := (le_div_iff hπ).mp hy_lo
    linarith
  · have := mul_lt_mul_of_pos_left hθyx hn0
    linarith
  · have := (div_lt_iff hπ).mp hx_hi
    linarith

/-- Same lobe with even floor: the statistic is strictly increasing on
[p_min, p_max]. -/
theorem sameLobe_strictMono (p_min p_max : ℝ) (n : ℕ) (hn : 0 < n)
    (h0 : 0 ≤ p_min) (h1 : p_max ≤ 1)
    (hfl : ⌊2 * (n : ℝ) * Real.arccos (Real.sqrt p_max) / Real.pi⌋ =
      ⌊2 * (n : ℝ) * Real.arccos (Real.sqrt p_min) / Real.pi⌋)
    (heven : ⌊2 * (n : ℝ) * Real.arccos (Real.sqrt p_max) / Real.pi⌋ % 2 = 0) :
    StrictMonoOn (fun p => cheb n (Real.sqrt p) ^ 2) (Set.Icc p_min p_max) := by
  intro x hx y hy hxy
  obtain ⟨vx, vy, hvy0, hvyx, hvxπ, hgx, hgy⟩ :=
    sameLobe_core p_min p_max n hn h0 h1 hfl x y hx hy hxy
  simp only
  rw [hgx, hgy]
  obtain ⟨m, hm⟩ := Int.even_iff.mpr heven
  have hsh : ∀ v : ℝ, Real.cos (v +
      (⌊2 * (n : ℝ) * Real.arccos (Real.sqrt p_max) / Real.pi⌋ : ℝ) * Real.pi) =
      Real.cos v := by
    intro v
    rw [show ((⌊2 * (n : ℝ) * Real.arccos (Real.sqrt p_max) / Real.pi⌋ : ℤ) : ℝ) *
        Real.pi = (m : ℝ) * (2 * Real.pi) by rw [hm]; push_cast; ring]
    exact Real.cos_add_int_mul_two_pi v m
  rw [hsh, hsh]
  have := Real.cos_lt_cos_of_nonneg_of_le_pi hvy0 hvxπ.le hvyx
  linarith

/-- Same lobe with odd floor: the statistic is strictly decreasing on
[p_min, p_max]. -/
theorem sameLobe_strictAnti (p_min p_max : ℝ) (n : ℕ) (hn : 0 < n)
    (h0 : 0 ≤ p_min) (h1 : p_max ≤ 1)
    (hfl : ⌊2 * (n : ℝ) * Real.arccos (Real.sqrt p_max) / Real.pi⌋ =
      ⌊2 * (n : ℝ) * Real.arccos (Real.sqrt p_min) / Real.pi⌋)
    (hodd : ⌊2 * (n : ℝ) * Real.arccos (Real.sqrt p_max) / Real.pi⌋ % 2 = 1) :
    StrictAntiOn (fun p => cheb n (Real.sqrt p) ^ 2) (Set.Icc p_min p_max) := by
  intro x hx y hy hxy
  obtain ⟨vx, vy, hvy0, hvyx, hvxπ, hgx, hgy⟩ :=
    sameLobe_core p_min p_max n hn h0 h1 hfl x y hx hy hxy
  simp only
  rw [hgx, hgy]
  obtain ⟨m, hm⟩ := Int.odd_iff.mpr hodd
  have hsh : ∀ v : ℝ, Real.cos (v +
      (⌊2 * (n : ℝ) * Real.arccos (Real.sqrt p_max) / Real.pi⌋ : ℝ) * Real.pi) =
      -Real.cos v := by
    intro v
    rw [show v + ((⌊2 * (n : ℝ) * Real.arccos (Real.sqrt p_max) / Real.pi⌋ : ℤ) : ℝ) *
        Real.pi = (v + Real.pi) + (m : ℝ) * (2 * Real.pi) by rw [hm]; push_cast; ring,
      Real.cos_add_int_mul_two_pi, Real.cos_add_pi]
  rw [hsh, hsh]
  have := Real.cos_lt_cos_of_nonneg_of_le_pi hvy0 hvxπ.le hvyx
  linarith


/-- A successful degree search (on an odd start, as find_next_k always
supplies) returns k with n = 2k+1 strictly above the guard and with the
two endpoint angles in the same monotone lobe. -/
theorem findAux_sound (theta_lo theta_hi min_k : ℝ) (n k' : ℕ) (hodd : n % 2 = 1)
    (h : findAux theta_lo theta_hi min_k n = some k') :
    ((2 * k' + 1 : ℕ) : ℝ) > 2 * min_k + 1 ∧
    ⌊2 * ((2 * k' + 1 : ℕ) : ℝ) * theta_lo / Real.pi⌋ =
      ⌊2 * ((2 * k' + 1 : ℕ) : ℝ) * theta_hi / Real.pi⌋ := by
  induction n using Nat.strong_induction_on with
  | _ n ih =>
    rw [findAux] at h
    split_ifs at h with h1 h2 h3
    · obtain rfl : (n - 1) / 2 = k' := Option.some.inj h
      have hkn : 2 * ((n - 1) / 2) + 1 = n := by omega
      rw [hkn]
      exact ⟨h1, h2⟩
    · exact ih (n - 2) (by omega) (by omega) h

/-- The two properties established by a successful find_next_k call:
2k+1 strictly exceeds 2*min_k+1, and the interval endpoints share a
monotone lobe of the degree-(2k+1) statistic. -/
theorem find_next_k_sound (p_min p_max min_k : ℝ) (k : ℕ) (hmk : 0 ≤ min_k)
    (h : find_next_k p_min p_max min_k = some k) :
    ((2 * k + 1 : ℕ) : ℝ) > 2 * min_k + 1 ∧
    ⌊2 * ((2 * k + 1 : ℕ) : ℝ) * Real.arccos (Real.sqrt p_max) / Real.pi⌋ =
      ⌊2 * ((2 * k + 1 : ℕ) : ℝ) * Real.arccos (Real.sqrt p_min) / Real.pi⌋ := by
  simp only [find_next_k] at h
  have hodd : ∀ m : ℤ, (Int.toNat (if m % 2 = 0 then m + 1 else m)) % 2 = 1 ∨
      Int.toNat (if m % 2 = 0 then m + 1 else m) = 0 := by
    intro m
    split_ifs with hm <;> omega
  rcases hodd ⌊Real.pi / 2 / (Real.arccos (Real.sqrt p_min) -
      Real.arccos (Real.sqrt p_max))⌋ with ho | hz
  · exact findAux_sound _ _ _ _ _ ho h
  · rw [hz, findAux] at h
    rw [if_neg (by push_neg; norm_num; linarith)] at h
    simp at h

/-- C3 amended: whenever find_next_k returns some k, the degree n = 2k+1
STRICTLY exceeds 2*min_k+1 (so k = min_k itself is never returned, even
when it qualifies), and at the returned degree the statistic
g_n(p) = T_n(sqrt p)^2 is strictly monotone on [p_min, p_max] (strictly
increasing or strictly decreasing according to the parity of the shared
lobe), hence has no local extremum there. -/
theorem find_next_k_amended (p_min p_max min_k : ℝ) (k : ℕ)
    (h0 : 0 ≤ p_min) (h1 : p_max ≤ 1) (hmk : 0 ≤ min_k)
    (h : find_next_k p_min p_max min_k = some k) :
    ((2 * k + 1 : ℕ) : ℝ) > 2 * min_k + 1 ∧
    (StrictMonoOn (fun p => cheb (2 * k + 1) (Real.sqrt p) ^ 2) (Set.Icc p_min p_max) ∨
     StrictAntiOn (fun p => cheb (2 * k + 1) (Real.sqrt p) ^ 2) (Set.Icc p_min p_max)) := by
  obtain ⟨hgt, hfl⟩ := find_next_k_sound p_min p_max min_k k hmk h
  refine ⟨hgt, ?_⟩
  rcases Int.emod_two_eq_zero_or_one
      ⌊2 * ((2 * k + 1 : ℕ) : ℝ) * Real.arccos (Real.sqrt p_max) / Real.pi⌋ with he | ho
  · exact Or.inl (sameLobe_strictMono p_min p_max (2 * k + 1) (by omega) h0 h1 hfl he)
  · exact Or.inr (sameLobe_strictAnti p_min p_max (2 * k + 1) (by omega) h0 h1 hfl ho)

/-- C3 amended witness: the concrete successful search of the C9 trace,
find_next_k((1/40)^(1/100) - 1e-15, 1, 0) = some 3. -/
theorem find_next_k_amended_witness :
    (0 : ℝ) ≤ L9 - 1e-15 ∧ (1 : ℝ) ≤ 1 ∧ (0 : ℝ) ≤ 0 ∧
    find_next_k (L9 - 1e-15) 1 0 = some 3 ∧
    (((2 * 3 + 1 : ℕ) : ℝ) > 2 * 0 + 1 ∧
     (StrictMonoOn (fun p => cheb (2 * 3 + 1) (Real.sqrt p) ^ 2)
        (Set.Icc (L9 - 1e-15) 1) ∨
      StrictAntiOn (fun p => cheb (2 * 3 + 1) (Real.sqrt p) ^ 2)
        (Set.Icc (L9 - 1e-15) 1))) :=
  ⟨L9e_nonneg, le_rfl, le_rfl, find_C9,
    find_next_k_amended (L9 - 1e-15) 1 0 3 L9e_nonneg le_rfl le_rfl find_C9⟩

theorem arccos_sqrt_sq (x : ℝ) (h0 : 0 ≤ x) (hπ : x ≤ Real.pi)
    (hc : 0 ≤ Real.cos x) : Real.arccos (Real.sqrt (Real.cos x ^ 2)) = x := by
  rw [Real.sqrt_sq hc, Real.arccos_cos h0 hπ]

/-- C3 counterexample: at pMin = cos(11 pi/72)^2, pMax = cos(pi/24)^2 and
minK = 1, find_next_k returns the NoImprovingDegree signal even though
k = minK = 1 qualifies: g_3(p) = T_3(sqrt p)^2 is strictly increasing (no
local extremum) on [pMin, pMax].  The search requires n = 2k+1 to STRICTLY
exceed 2*minK+1, so the largest qualifying k >= minK is not returned when
it equals minK. -/
theorem find_k_at_min_counterexample :
    find_next_k (Real.cos (11 * Real.pi / 72) ^ 2) (Real.cos (Real.pi / 24) ^ 2) 1 =
      none ∧
    StrictMonoOn (fun p => cheb (2 * 1 + 1) (Real.sqrt p) ^ 2)
      (Set.Icc (Real.cos (11 * Real.pi / 72) ^ 2) (Real.cos (Real.pi / 24) ^ 2)) := by
  have hπ := Real.pi_pos
  have hπ0 := Real.pi_ne_zero
  have hclo : (0 : ℝ) ≤ Real.cos (Real.pi / 24) :=
    Real.cos_nonneg_of_mem_Icc ⟨by linarith, by linarith⟩
  have hchi : (0 : ℝ) ≤ Real.cos (11 * Real.pi / 72) :=
    Real.cos_nonneg_of_mem_Icc ⟨by linarith, by linarith⟩
  have hlo : Real.arccos (Real.sqrt (Real.cos (Real.pi / 24) ^ 2)) = Real.pi / 24 :=
    arccos_sqrt_sq _ (by positivity) (by linarith) hclo
  have hhi : Real.arccos (Real.sqrt (Real.cos (11 * Real.pi / 72) ^ 2)) =
      11 * Real.pi / 72 :=
    arccos_sqrt_sq _ (by positivity) (by linarith) hchi
  constructor
  · simp only [find_next_k, hlo, hhi]
    rw [show 11 * Real.pi / 72 - Real.pi / 24 = Real.pi / 9 by ring]
    rw [show Real.pi / 2 / (Real.pi / 9) = 9 / 2 by
      field_simp
      ring]
    rw [show ⌊(9 / 2 : ℝ)⌋ = 4 by rw [Int.floor_eq_iff] <;> norm_num]
    norm_num
    rw [show Int.toNat 5 = 5 from rfl]
    rw [findAux]
    rw [if_pos (by push_cast; norm_num : ((5 : ℕ) : ℝ) > 2 * (1 : ℝ) + 1)]
    rw [if_neg (show ¬(⌊2 * ((5 : ℕ) : ℝ) * (Real.pi / 24) / Real.pi⌋ =
        ⌊2 * ((5 : ℕ) : ℝ) * (11 * Real.pi / 72) / Real.pi⌋) by
      rw [show 2 * ((5 : ℕ) : ℝ) * (Real.pi / 24) / Real.pi = 5 / 12 by
        push_cast; field_simp; ring]
      rw [show 2 * ((5 : ℕ) : ℝ) * (11 * Real.pi / 72) / Real.pi = 55 / 36 by
        push_cast; field_simp; ring]
      rw [show ⌊(5 / 12 : ℝ)⌋ = 0 by rw [Int.floor_eq_iff] <;> norm_num]
      rw [show ⌊(55 / 36 : ℝ)⌋ = 1 by rw [Int.floor_eq_iff] <;> norm_num]
      norm_num)]
    rw [dif_pos (by norm_num : 2 ≤ 5)]
    rw [show (5 - 2 : ℕ) = 3 from rfl]
    rw [findAux]
    rw [if_neg (by push_cast; push_neg; norm_num : ¬(((3 : ℕ) : ℝ) > 2 * (1 : ℝ) + 1))]
  · apply sameLobe_strictMono _ _ _ (by omega) (by positivity) (Real.cos_sq_le_one _)
    · rw [hlo, hhi]
      rw [show 2 * ((2 * 1 + 1 : ℕ) : ℝ) * (Real.pi / 24) / Real.pi = 1 / 4 by
        push_cast; field_simp; ring]
      rw [show 2 * ((2 * 1 + 1 : ℕ) : ℝ) * (11 * Real.pi / 72) / Real.pi = 11 / 12 by
        push_cast; field_simp; ring]
      rw [show ⌊(1 / 4 : ℝ)⌋ = 0 by rw [Int.floor_eq_iff] <;> norm_num]
      rw [show ⌊(11 / 12 : ℝ)⌋ = 0 by rw [Int.floor_eq_iff] <;> norm_num]
    · rw [hlo]
      rw [show 2 * ((2 * 1 + 1 : ℕ) : ℝ) * (Real.pi / 24) / Real.pi = 1 / 4 by
        push_cast; field_simp; ring]
      rw [show ⌊(1 / 4 : ℝ)⌋ = 0 by rw [Int.floor_eq_iff] <;> norm_num]
      norm_num
end FindNextK

/-- C10: calling chebpe with eps = 0.5 computes the iteration budget
T = ceil(log(1/(2*eps))/log(r)) = ceil(0) = 0, so alpha/T raises an
unhandled ZeroDivisionError during Step 1, before any oracle query -- even
though the initial interval [0, 1] already satisfies the loop's exit
condition p_max - p_min <= 2*eps. -/
theorem chebpe_eps_half_raises (p_target : ℝ) (coins : ℕ → Bool) (fuel : ℕ) :
    iterBudget cfgC10.eps cfgC10.r = 0 ∧
    chebpe p_target cfgC10 coins fuel = none ∧
    chebInit.p_max - chebInit.p_min ≤ 2 * cfgC10.eps := by
  have hT : iterBudget cfgC10.eps cfgC10.r = 0 := by
    unfold iterBudget cfgC10
    norm_num
  refine ⟨hT, ?_, ?_⟩
  · unfold chebpe
    rw [hT]
    simp
  · simp [chebInit, cfgC10]

end Oqae
